import Mathlib

/-!
Verification of the Game-Of-Life core (GameOfLife.py): grid evolution,
neighbor counting, grid resizing, bounding-box computation, and the RLE
codec (parseRLE / encodeGrid / writeRLE).

The grid is embedded as a list of rows of natural numbers (numpy 2-d int
array; a cell is live iff its value is 1).  Text is embedded as List Char.
Python ints are embedded as ℤ (they are unbounded), and the float
sentinels math.inf / -math.inf used by findBoundaries are embedded as an
Option ℤ where none stands for the infinite sentinel.
-/

/-- A grid: list of rows, each row a list of cell values (numpy int array). -/
abbrev Grid := List (List ℕ)

/-- Number of columns, numpy shape[1]: the (uniform) row length. -/
def numCols (g : Grid) : ℕ := (g.headD []).length

/-- Row r of the grid (in-bounds access in all source call sites). -/
def rowOf (g : Grid) (r : ℕ) : List ℕ := g.getD r []

/-- Cell value at row r, column c (in-bounds access in all source call sites). -/
def cellN (g : Grid) (r c : ℕ) : ℕ := (g.getD r []).getD c 0

/-- Cell value at a possibly-signed column (used by the encoder, whose column
indices come from findBoundaries; they are nonnegative in every reachable call). -/
def cellZ (g : Grid) (r : ℕ) (c : ℤ) : ℕ := if 0 ≤ c then cellN g r c.toNat else 0

/-- The data-model invariant: every row has the same length (numpy 2-d arrays
are rectangular by construction). -/
def Rectangular (g : Grid) : Prop := ∀ row ∈ g, row.length = numCols g

/-- The data-model invariant: each cell is the two-valued scalar 0 or 1. -/
def Cells01 (g : Grid) : Prop := ∀ row ∈ g, ∀ v ∈ row, v = 0 ∨ v = 1

/-- Well-formed grid per the spec data model. -/
def WFGrid (g : Grid) : Prop := Rectangular g ∧ Cells01 g

instance : DecidablePred Rectangular := fun g =>
  List.decidableBAll _ g
instance : DecidablePred Cells01 := fun g =>
  List.decidableBAll _ g
instance : DecidablePred WFGrid := fun g =>
  inferInstanceAs (Decidable (Rectangular g ∧ Cells01 g))

/-- Python range(a, b) over ints. -/
def intRange (a b : ℤ) : List ℤ := (List.range (b - a).toNat).map (fun i => a + Int.ofNat i)

/-! ## checkArray / findNeighbors (source lines 55-69 and 173-182) -/

/-- Source checkArray: a negative index is first remapped to shape+1 (an index
that is guaranteed out of bounds, so that numpy's negative-index wraparound is
never reached), then the g[r][c] access is attempted and an IndexError is
answered with 0.  The try/except is embedded as the bounds test. -/
def checkArray (g : Grid) (r c : ℤ) : ℕ :=
  let r2 : ℤ := if r < 0 then (g.length : ℤ) + 1 else r
  let c2 : ℤ := if c < 0 then (numCols g : ℤ) + 1 else c
  if r2 < (g.length : ℤ) ∧ c2 < (numCols g : ℤ) then cellN g r2.toNat c2.toNat else 0

/-- Source findNeighbors: sum of checkArray over the 8 Moore neighbors,
in the source's order. -/
def findNeighbors (g : Grid) (r c : ℤ) : ℕ :=
  checkArray g (r-1) (c-1) + checkArray g (r-1) c +
  checkArray g (r-1) (c+1) + checkArray g (r+1) (c-1) +
  checkArray g (r+1) c + checkArray g (r+1) (c+1) +
  checkArray g r (c-1) + checkArray g r (c+1)

/-- The 8 Moore-neighborhood displacements, in the order the source visits them. -/
def mooreOffsets : List (ℤ × ℤ) :=
  [(-1,-1), (-1,0), (-1,1), (1,-1), (1,0), (1,1), (0,-1), (0,1)]

/-- Specification-side predicate: the position is inside [0, rows) × [0, cols)
and holds a live cell. -/
def inBoundsLive (g : Grid) (p : ℤ × ℤ) : Bool :=
  decide (0 ≤ p.1 ∧ p.1 < (g.length : ℤ) ∧ 0 ≤ p.2 ∧ p.2 < (numCols g : ℤ) ∧
    cellN g p.1.toNat p.2.toNat = 1)

/-- Specification-side count: the number of live cells among the 8 in-bounds
Moore-neighborhood positions of (r, c). -/
def countLiveNeighbors (g : Grid) (r c : ℤ) : ℕ :=
  ((mooreOffsets.map (fun d => (r + d.1, c + d.2))).filter (inBoundsLive g)).length

/-! ## updateGrid (source lines 285-320) -/

/-- Write value v at (r, c); numpy element assignment nextGrid[i][j] = v. -/
def set2d (g : Grid) (r c : ℕ) (v : ℕ) : Grid := g.set r ((g.getD r []).set c v)

/-- The per-cell transition of the source's loop body: the source branches on
grid[i][j] == 1, then on (nAlive < 2 or nAlive > 3) resp. nAlive == 3. -/
def nextStateAt (g : Grid) (i j : ℕ) : ℕ :=
  let nAlive := findNeighbors g (i : ℤ) (j : ℤ)
  if cellN g i j = 1 then (if nAlive < 2 ∨ 3 < nAlive then 0 else 1)
  else (if nAlive = 3 then 1 else 0)

/-- Source updateGrid, value-level: nextGrid starts as a copy of grid and
every cell (i, j) is assigned nextStateAt computed from the untouched input
grid; the final grid[:] = nextGrid[:] write-back is modelled separately
(updateGridMut). -/
def updateGrid (g : Grid) : Grid :=
  (List.range g.length).foldl
    (fun acc i =>
      (List.range (numCols g)).foldl (fun acc2 j => set2d acc2 i j (nextStateAt g i j)) acc)
    g

/-- One mutation step of the source loop inside a store of array objects:
read the grid object, read the nextGrid object, write one cell of nextGrid. -/
def mutStep (store : List Grid) (gRef nextRef i j : ℕ) : List Grid :=
  let gcur := store.getD gRef []
  let ncur := store.getD nextRef []
  store.set nextRef (set2d ncur i j (nextStateAt gcur i j))

/-- Source updateGrid as a heap-level operation on a store of array objects:
nextGrid = grid.copy() allocates a fresh object, the loops write nextGrid
cell by cell while reading grid, grid[:] = nextGrid[:] copies the result back
into the argument object, and the function returns that same object. -/
def updateGridMut (store : List Grid) (gRef : ℕ) : ℕ × List Grid :=
  let nextRef := store.length
  let store1 := store ++ [store.getD gRef []]
  let rows := (store1.getD gRef []).length
  let cols := numCols (store1.getD gRef [])
  let store2 := (List.range rows).foldl
    (fun st i => (List.range cols).foldl (fun st2 j => mutStep st2 gRef nextRef i j) st)
    store1
  let store3 := store2.set gRef (store2.getD nextRef [])
  (gRef, store3)

/-! ## addSpace (source lines 26-52) -/

/-- One iteration of the addSpace loop: append a dead row below, prepend a
dead row above, append a dead column at the right, prepend a dead column at
the left (np.append along axis 0 resp. axis 1, in the source's order). -/
def addRing (g : Grid) : Grid :=
  let g1 := g ++ [List.replicate (numCols g) 0]
  let g2 := List.replicate (numCols g1) 0 :: g1
  let g3 := g2.map (fun row => row ++ [0])
  g3.map (fun row => 0 :: row)

/-- Source addSpace: extraSpace iterations of the ring-adding loop
(grid.copy() is the identity at value level). -/
def addSpace (g : Grid) : ℕ → Grid
  | 0 => g
  | n + 1 => addSpace (addRing g) n

/-! ## createAnimation resize call (source lines 87-93) -/

/-- The ring count the evolution driver passes to addSpace:
max(abs(gridSize - rows), abs(gridSize - cols)). -/
def animationRings (rows cols gridSize : ℕ) : ℕ :=
  max ((gridSize : ℤ) - (rows : ℤ)).natAbs ((gridSize : ℤ) - (cols : ℤ)).natAbs

/-- The grid createAnimation hands to the renderer: resized when either axis
is smaller than the requested size, otherwise an unchanged copy. -/
def createAnimationGrid (inGrid : Grid) (gridSize : ℕ) : Grid :=
  if inGrid.length < gridSize ∨ numCols inGrid < gridSize then
    addSpace inGrid (animationRings inGrid.length (numCols inGrid) gridSize)
  else inGrid

/-! ## findBoundaries (source lines 146-170) -/

/-- First row whose sum is positive; the for-else fallthrough of the source
leaves the loop variable at the last index (grids with at least one live cell,
the only inputs findBoundaries is reached with, always break). -/
def findTop (g : Grid) : ℕ :=
  ((List.range g.length).find? (fun r => decide (0 < (rowOf g r).sum))).getD (g.length - 1)

/-- Last row whose sum is positive (the source scans range(rows-1, -1, -1)
and falls through at index 0). -/
def findBot (g : Grid) : ℕ :=
  (((List.range g.length).reverse).find? (fun r => decide (0 < (rowOf g r).sum))).getD 0

/-- col < minCol where minCol starts as math.inf (none). -/
def ltMinSent (col : ℤ) (mn : Option ℤ) : Bool :=
  match mn with
  | none => true
  | some v => decide (col < v)

/-- col > maxCol where maxCol starts as -math.inf (none). -/
def gtMaxSent (col : ℤ) (mx : Option ℤ) : Bool :=
  match mx with
  | none => true
  | some v => decide (v < col)

/-- The inner column loop of findBoundaries: on a live cell, if col < minCol
then minCol = col, elif col > maxCol then maxCol = col. -/
def colScanRow (g : Grid) (row : ℕ) (st : Option ℤ × Option ℤ) : Option ℤ × Option ℤ :=
  (List.range (numCols g)).foldl
    (fun st2 col =>
      if cellN g row col = 1 then
        if ltMinSent (col : ℤ) st2.1 then (some (col : ℤ), st2.2)
        else if gtMaxSent (col : ℤ) st2.2 then (st2.1, some (col : ℤ))
        else st2
      else st2) st

/-- The outer row loop of findBoundaries with its early break once
minCol == 0 and maxCol == cols - 1. -/
def colScanRows (g : Grid) : List ℕ → Option ℤ × Option ℤ → Option ℤ × Option ℤ
  | [], st => st
  | r :: rs, st =>
    let st2 := colScanRow g r st
    if st2.1 = some 0 ∧ st2.2 = some ((numCols g : ℤ) - 1) then st2
    else colScanRows g rs st2

/-- Source findBoundaries.  The third and fourth components model minCol and
maxCol; none models the never-replaced float sentinel (math.inf resp.
-math.inf). -/
def findBoundaries (g : Grid) : ℕ × ℕ × Option ℤ × Option ℤ :=
  let t := findTop g
  let b := findBot g
  let mnmx := colScanRows g (List.range' t (b + 1 - t)) (none, none)
  (t, b, mnmx.1, mnmx.2)

/-! ## Specification-side bounding box (from the spec's words, for comparison
with findBoundaries: smallest/largest row resp. column index containing a
live cell). -/

/-- Row r contains a live cell. -/
def rowLive (g : Grid) (r : ℕ) : Bool := (rowOf g r).any (fun v => decide (v = 1))

/-- Column c contains a live cell. -/
def colLive (g : Grid) (c : ℕ) : Bool :=
  (List.range g.length).any (fun r => decide (cellN g r c = 1))

/-- The grid has at least one live cell. -/
def hasLive (g : Grid) : Bool := (List.range g.length).any (rowLive g)

/-- Smallest row index containing a live cell (spec-side). -/
def specTop (g : Grid) : ℕ := ((List.range g.length).find? (rowLive g)).getD 0

/-- Largest row index containing a live cell (spec-side). -/
def specBot (g : Grid) : ℕ := (((List.range g.length).reverse).find? (rowLive g)).getD 0

/-- Smallest column index containing a live cell (spec-side). -/
def specMinCol (g : Grid) : ℕ := ((List.range (numCols g)).find? (colLive g)).getD 0

/-- Largest column index containing a live cell (spec-side). -/
def specMaxCol (g : Grid) : ℕ := (((List.range (numCols g)).reverse).find? (colLive g)).getD 0

/-- findBoundaries returned the true bounding box of g. -/
def BoxCorrect (g : Grid) : Prop :=
  findBoundaries g = (specTop g, specBot g, some (specMinCol g : ℤ), some (specMaxCol g : ℤ))

instance : DecidablePred BoxCorrect := fun g =>
  inferInstanceAs (Decidable (findBoundaries g = _))

/-- The crop of g to the box: rows top..bot, columns minCol..maxCol. -/
def cropGrid (g : Grid) (top bot : ℕ) (mn mx : ℤ) : Grid :=
  (List.range' top (bot + 1 - top)).map
    (fun r => (intRange mn (mx + 1)).map (fun c => cellZ g r c))

/-! ## Decimal text (Python str/int on integers) -/

/-- The decimal digit character for d < 10. -/
def digitCh (d : ℕ) : Char := Char.ofNat (48 + d)

/-- Python str(n) for a natural number: decimal digits, most significant first. -/
def natDigits (n : ℕ) : List Char :=
  if n = 0 then ['0'] else ((Nat.digits 10 n).map digitCh).reverse

/-- Python str(n) for an int: optional minus sign followed by decimal digits. -/
def pyStr (n : ℤ) : List Char :=
  if n < 0 then '-' :: natDigits n.natAbs else natDigits n.toNat

/-- Whitespace stripped by str.strip() (the characters occurring in this
program's inputs). -/
def isSpaceCh (c : Char) : Bool := c = ' ' ∨ c = '\t' ∨ c = '\n' ∨ c = '\r'

/-- Python str.strip(). -/
def pyStrip (l : List Char) : List Char :=
  ((l.dropWhile isSpaceCh).reverse.dropWhile isSpaceCh).reverse

/-- Decimal digit value of a character. -/
def digitVal (c : Char) : Option ℕ :=
  if '0' ≤ c ∧ c ≤ '9' then some (c.toNat - 48) else none

/-- Parse a nonempty all-digit string to a natural number. -/
def parseNatDigits (l : List Char) : Option ℕ :=
  if l = [] then none
  else l.foldl (fun acc c => acc.bind (fun a => (digitVal c).map (fun d => a * 10 + d))) (some 0)

/-- Python int(s): strip whitespace, optional sign, decimal digits; any other
character raises ValueError (none).  Underscore digit separators and Unicode
whitespace, which no input of this development contains, are not modelled. -/
def pyInt (s : List Char) : Option ℤ :=
  match pyStrip s with
  | '-' :: rest => (parseNatDigits rest).map (fun n => -(n : ℤ))
  | '+' :: rest => (parseNatDigits rest).map (fun n => (n : ℤ))
  | rest => (parseNatDigits rest).map (fun n => (n : ℤ))

/-! ## encodeGrid (source lines 125-143) -/

/-- itertools.groupby compression: consecutive equal characters become one
(label, count) group, counts ≥ 1, in order. -/
def rleGroups : List Char → List (Char × ℕ)
  | [] => []
  | c :: cs =>
    match rleGroups cs with
    | [] => [(c, 1)]
    | (d, n) :: rest => if c = d then (c, n + 1) :: rest else (c, 1) :: (d, n) :: rest

/-- The encoder's row text: 'o' for a live cell, 'b' otherwise, over columns
minCol..maxCol. -/
def rowChars (g : Grid) (row : ℕ) (mn mx : ℤ) : List Char :=
  (intRange mn (mx + 1)).map (fun c => if cellZ g row c = 1 then 'o' else 'b')

/-- Source encodeGrid: per row in top..bot the groupby groups of the row text,
followed by '$' (or '!' on the last row). -/
def encodeGrid (g : Grid) (top bot : ℕ) (mn mx : ℤ) : List (Char × ℕ) :=
  (List.range' top (bot + 1 - top)).flatMap
    (fun row => rleGroups (rowChars g row mn mx) ++ [(if row = bot then '!' else '$', 1)])

/-! ## writeRLE (source lines 323-366) -/

/-- Token text of one group: the tag alone when the count is 1, otherwise
str(count) followed by the tag. -/
def renderToken (gp : Char × ℕ) : List Char :=
  if gp.2 = 1 then [gp.1] else pyStr (gp.2 : ℤ) ++ [gp.1]

/-- Concatenated token text of a group list. -/
def renderAll (gs : List (Char × ℕ)) : List Char := (gs.map renderToken).flatten

/-- The 70-character line builder of writeRLE.  cur is the partial line being
assembled; a token that would push the line past 70 characters flushes the
line and starts a new one; the group at position len-2 is skipped when it is
a dead run (trailing-dead-run elision); the group list writeRLE passes in is
never empty (it always ends with the pattern terminator). -/
def wrapGroups : List (Char × ℕ) → List Char → List (List Char)
  | [], cur => [cur]
  | [gp], cur =>
    let tok := renderToken gp
    if 70 < cur.length + tok.length then [cur, tok] else [cur ++ tok]
  | [gp, gp2], cur =>
    if gp.1 = 'b' then wrapGroups [gp2] cur
    else
      let tok := renderToken gp
      if 70 < cur.length + tok.length then cur :: wrapGroups [gp2] tok
      else wrapGroups [gp2] (cur ++ tok)
  | gp :: gp2 :: gp3 :: rest, cur =>
    let tok := renderToken gp
    if 70 < cur.length + tok.length then cur :: wrapGroups (gp2 :: gp3 :: rest) tok
    else wrapGroups (gp2 :: gp3 :: rest) (cur ++ tok)

/-- The header line x = W, y = H. -/
def hdrChars (w h : ℤ) : List Char :=
  ['x', ' ', '=', ' '] ++ pyStr w ++ [',', ' ', 'y', ' ', '=', ' '] ++ pyStr h

/-- Source writeRLE, as the list of lines written to the file (without the
newline characters separating them).  When findBoundaries left a float
sentinel in minCol or maxCol, Python's range(minCol, maxCol + 1) inside
encodeGrid raises TypeError and the caller sees the exception. -/
def writeRLE (g : Grid) : Except String (List (List Char)) :=
  match findBoundaries g with
  | (t, b, some mn, some mx) =>
    .ok (hdrChars (mx - mn + 1) ((b : ℤ) - (t : ℤ) + 1) :: wrapGroups (encodeGrid g t b mn mx) [])
  | (_, _, _, _) => .error "TypeError"

/-! ## parseRLE (source lines 210-253) -/

/-- re.split('[bo]', chunk) and re.findall('[bo]', chunk) together: the list
of between-tag segments (always one more segment than tags) and the list of
tags in order. -/
def splitOnTags : List Char → List (List Char) × List Char
  | [] => ([[]], [])
  | c :: cs =>
    match splitOnTags cs with
    | (segs, tags) =>
      if c = 'b' ∨ c = 'o' then ([] :: segs, c :: tags)
      else
        match segs with
        | s :: ss => ((c :: s) :: ss, tags)
        | [] => ([[c]], tags)

/-- Python str.split(sep) for a single-character separator. -/
def splitOnChar (sep : Char) : List Char → List (List Char)
  | [] => [[]]
  | c :: cs =>
    let r := splitOnChar sep cs
    if c = sep then [] :: r
    else
      match r with
      | s :: ss => (c :: s) :: ss
      | [] => [[c]]

/-- The tag/count loop of parseRLE on one '$'-chunk: for each tag, the count
is int(segment) with ValueError answered by 1, and count cells (0 for 'b',
1 otherwise) are appended; a negative count extends by range(negative) = nothing. -/
def expandChunk (chunk : List Char) : List ℕ :=
  let st := splitOnTags chunk
  (st.1.zip st.2).flatMap
    (fun sc => List.replicate (((pyInt sc.1).getD 1).toNat) (if sc.2 = 'b' then 0 else 1))

/-- One decoded row: the expanded chunk, extended with dead cells up to the
declared width when shorter (range(xvalue - len) is empty when not). -/
def decodeChunk (x : ℤ) (chunk : List Char) : List ℕ :=
  let row := expandChunk chunk
  if (row.length : ℤ) ≠ x then row ++ List.replicate (x - (row.length : ℤ)).toNat 0 else row

/-- The header-line parse of parseRLE: chunks = line.split(','),
int(chunks[0].strip().split('=')[1]) and the same on chunks[1]; a missing
piece raises IndexError and a failed int() raises ValueError. -/
def parseHeaderLine (l : List Char) : Except String (ℤ × ℤ) :=
  match splitOnChar ',' l with
  | c0 :: c1 :: _ =>
    match splitOnChar '=' (pyStrip c0), splitOnChar '=' (pyStrip c1) with
    | _ :: x :: _, _ :: y :: _ =>
      match pyInt x, pyInt y with
      | some xv, some yv => .ok (xv, yv)
      | _, _ => .error "ValueError"
    | _, _ => .error "IndexError"
  | _ => .error "IndexError"

/-- The line loop of parseRLE: a '#' line is skipped (continue, before the
terminator check), an 'x' line is parsed as the header, any other line is
appended to the token stream; afterwards a line whose last character is '!'
removes the last accumulated character and stops the loop.  line[0] on an
empty line raises IndexError. -/
def phase1 : List (List Char) → List Char → Option (ℤ × ℤ) →
    Except String (List Char × Option (ℤ × ℤ))
  | [], acc, hdr => .ok (acc, hdr)
  | [] :: _, _, _ => .error "IndexError"
  | (c :: cs) :: ls, acc, hdr =>
    if c = '#' then phase1 ls acc hdr
    else if c = 'x' then
      match parseHeaderLine (c :: cs) with
      | .error e => .error e
      | .ok h =>
        if (c :: cs).getLast (List.cons_ne_nil c cs) = '!' then .ok (acc.dropLast, some h)
        else phase1 ls acc (some h)
    else
      if (c :: cs).getLast (List.cons_ne_nil c cs) = '!' then .ok ((acc ++ c :: cs).dropLast, hdr)
      else phase1 ls (acc ++ c :: cs) hdr

/-- Source parseRLE on the list of file lines: strip each line, run the line
loop, then decode each '$'-chunk of the token stream against the header
width; referencing an unassigned xvalue raises NameError, and np.array on
rows of unequal lengths raises ValueError.  The declared yvalue is parsed
but never compared against anything. -/
def parseRLE (rawLines : List (List Char)) : Except String Grid :=
  match phase1 (rawLines.map pyStrip) [] none with
  | .error e => .error e
  | .ok (rle, hdr) =>
    match hdr with
    | none => .error "NameError"
    | some (xv, _yv) =>
      let grid := (splitOnChar '$' rle).map (decodeChunk xv)
      if grid.all (fun row => row.length = (grid.headD []).length) then .ok grid
      else .error "ValueError"

/-- The trailing-dead-run elision performed by the writeRLE loop, described
positionally: the group at position len-2 (the one right before the final
pattern terminator) is dropped when it is a dead run. -/
def elideGroups : List (Char × ℕ) → List (Char × ℕ)
  | [gp, gp2] => if gp.1 = 'b' then [gp2] else [gp, gp2]
  | gp :: gp2 :: gp3 :: rest => gp :: elideGroups (gp2 :: gp3 :: rest)
  | l => l

/-- Expansion of run-length groups back into the character row. -/
def unrle (gs : List (Char × ℕ)) : List Char := gs.flatMap (fun g => List.replicate g.2 g.1)

/-! ## Helper lemmas: cells and neighbor counting -/

theorem getD_mem_of_lt (g : Grid) {r : ℕ} (hr : r < g.length) : g.getD r [] ∈ g := by
  rw [List.getD_eq_getElem?_getD, List.getElem?_eq_getElem hr]
  exact List.getElem_mem ..

theorem getD_mem_row {l : List ℕ} {c : ℕ} (hc : c < l.length) : l.getD c 0 ∈ l := by
  rw [List.getD_eq_getElem?_getD, List.getElem?_eq_getElem hc]
  exact List.getElem_mem ..

theorem cellN_zero_or_one (g : Grid) (hwf : WFGrid g) {r c : ℕ}
    (hr : r < g.length) (hc : c < numCols g) : cellN g r c = 0 ∨ cellN g r c = 1 := by
  obtain ⟨hrect, h01⟩ := hwf
  have hrow : g.getD r [] ∈ g := getD_mem_of_lt g hr
  have hlen : (g.getD r []).length = numCols g := hrect _ hrow
  exact h01 _ hrow _ (getD_mem_row (by omega))

theorem checkArray_eq_indicator (g : Grid) (hwf : WFGrid g) (a b : ℤ) :
    checkArray g a b = if inBoundsLive g (a, b) then 1 else 0 := by
  simp only [checkArray, inBoundsLive]
  by_cases ha : a < 0
  · have h1 : ¬ ((g.length : ℤ) + 1 < (g.length : ℤ)) := by omega
    have h2 : ¬ ((0:ℤ) ≤ a) := by omega
    simp [ha, h1, h2]
  · by_cases hb : b < 0
    · have h1 : ¬ ((numCols g : ℤ) + 1 < (numCols g : ℤ)) := by omega
      have h2 : ¬ ((0:ℤ) ≤ b) := by omega
      simp [ha, hb, h1, h2]
    · have h0a : (0:ℤ) ≤ a := by omega
      have h0b : (0:ℤ) ≤ b := by omega
      by_cases hr : a < (g.length : ℤ)
      · by_cases hc : b < (numCols g : ℤ)
        · rcases cellN_zero_or_one g hwf (r := a.toNat) (c := b.toNat)
            (by omega) (by omega) with h0 | h1
          · simp [ha, hb, hr, hc, h0, h0a, h0b]
          · simp [ha, hb, hr, hc, h1, h0a, h0b]
        · simp [ha, hb, hc]
      · simp [ha, hb, hr]

theorem filter_length_eq_sum {α : Type} (p : α → Bool) (l : List α) :
    (l.filter p).length = (l.map (fun x => if p x then 1 else 0)).sum := by
  induction l with
  | nil => rfl
  | cons a t ih => by_cases h : p a <;> simp [List.filter_cons, h, ih] <;> omega

theorem findNeighbors_eq_countLive (g : Grid) (hwf : WFGrid g) (r c : ℤ) :
    findNeighbors g r c = countLiveNeighbors g r c := by
  unfold countLiveNeighbors mooreOffsets
  rw [filter_length_eq_sum]
  simp only [List.map_cons, List.map_nil, List.sum_cons, List.sum_nil]
  unfold findNeighbors
  simp only [checkArray_eq_indicator g hwf]
  norm_num [sub_eq_add_neg]
  omega

/-! ## Helper lemmas: list set/getD -/

theorem getD_set_eq {α} (l : List α) (i : ℕ) (x d : α) (h : i < l.length) :
    (l.set i x).getD i d = x := by
  simp [List.getD_eq_getElem?_getD, List.getElem?_set_self, h]

theorem getD_set_ne {α} (l : List α) (i j : ℕ) (x d : α) (h : i ≠ j) :
    (l.set i x).getD j d = l.getD j d := by
  simp [List.getD_eq_getElem?_getD, List.getElem?_set_ne h]

theorem getD_out_of_range {α} (l : List α) (i : ℕ) (d : α) (h : l.length ≤ i) :
    l.getD i d = d := by
  simp [List.getD_eq_getElem?_getD, List.getElem?_eq_none h]

/-! ## Helper lemmas: the updateGrid write loops -/

theorem foldl_set_length (js : List ℕ) (f : ℕ → ℕ) (row : List ℕ) :
    (js.foldl (fun r2 k => r2.set k (f k)) row).length = row.length := by
  induction js generalizing row with
  | nil => rfl
  | cons j t ih => simp [List.foldl_cons, ih, List.length_set]

theorem rowWrite_getD (m : ℕ) (f : ℕ → ℕ) (row : List ℕ) (j : ℕ) :
    ((List.range m).foldl (fun r2 k => r2.set k (f k)) row).getD j 0 =
      if j < m ∧ j < row.length then f j else row.getD j 0 := by
  induction m with
  | zero => simp
  | succ n ih =>
    rw [List.range_succ, List.foldl_append]
    simp only [List.foldl_cons, List.foldl_nil]
    have hlen : ((List.range n).foldl (fun r2 k => r2.set k (f k)) row).length = row.length :=
      foldl_set_length _ _ _
    by_cases hj : j = n
    · subst hj
      by_cases hlt : j < row.length
      · rw [getD_set_eq _ _ _ _ (by omega), if_pos ⟨by omega, hlt⟩]
      · rw [List.set_eq_of_length_le (by omega), ih, if_neg (by omega), if_neg (by omega)]
    · rw [getD_set_ne _ _ _ _ _ (fun h => hj h.symm), ih]
      split_ifs with h1 h2 h2 <;> first | rfl | omega

theorem foldl_set2d_length (js : List ℕ) (i : ℕ) (f : ℕ → ℕ) (acc : Grid) :
    (js.foldl (fun a j => set2d a i j (f j)) acc).length = acc.length := by
  induction js generalizing acc with
  | nil => rfl
  | cons j t ih =>
    simp only [List.foldl_cons]
    rw [ih]
    simp [set2d, List.length_set]

theorem foldl_set2d_getD_ne (js : List ℕ) (i r : ℕ) (f : ℕ → ℕ) (acc : Grid) (h : r ≠ i) :
    (js.foldl (fun a j => set2d a i j (f j)) acc).getD r [] = acc.getD r [] := by
  induction js generalizing acc with
  | nil => rfl
  | cons j t ih =>
    simp only [List.foldl_cons]
    rw [ih, set2d, getD_set_ne _ _ _ _ _ (fun hh => h hh.symm)]

theorem foldl_set2d_getD_eq (js : List ℕ) (i : ℕ) (f : ℕ → ℕ) (acc : Grid) :
    (js.foldl (fun a j => set2d a i j (f j)) acc).getD i [] =
      js.foldl (fun r2 j => r2.set j (f j)) (acc.getD i []) := by
  induction js generalizing acc with
  | nil => rfl
  | cons j t ih =>
    simp only [List.foldl_cons]
    rw [ih]
    congr 1
    by_cases hi : i < acc.length
    · exact getD_set_eq _ _ _ _ (by simpa [set2d] using hi)
    · rw [set2d, List.set_eq_of_length_le (by simpa [set2d] using hi),
        getD_out_of_range _ _ _ (by omega)]
      rfl

theorem updateGrid_fold_getD (g : Grid) (is : List ℕ) :
    ∀ (acc : Grid) (r : ℕ), is.Nodup →
      (is.foldl (fun a i =>
          (List.range (numCols g)).foldl (fun a2 j => set2d a2 i j (nextStateAt g i j)) a)
        acc).getD r [] =
      if r ∈ is then
        (List.range (numCols g)).foldl (fun r2 j => r2.set j (nextStateAt g r j)) (acc.getD r [])
      else acc.getD r [] := by
  induction is with
  | nil => intro acc r _; simp
  | cons i t ih =>
    intro acc r hnd
    simp only [List.foldl_cons]
    rw [ih _ _ (List.Nodup.of_cons hnd)]
    by_cases hrt : r ∈ t
    · have hri : r ≠ i := fun h => (List.nodup_cons.mp hnd).1 (h ▸ hrt)
      rw [if_pos hrt, if_pos (List.mem_cons_of_mem _ hrt),
        foldl_set2d_getD_ne _ _ _ _ _ hri]
    · by_cases hri : r = i
      · subst hri
        rw [if_neg hrt, if_pos (List.mem_cons_self _ _), foldl_set2d_getD_eq]
      · rw [if_neg hrt, if_neg (by simp [hri, hrt])]
        exact foldl_set2d_getD_ne _ _ _ _ _ hri

theorem updateGrid_outer_length (g : Grid) (is : List ℕ) (acc : Grid) :
    (is.foldl (fun a i =>
        (List.range (numCols g)).foldl (fun a2 j => set2d a2 i j (nextStateAt g i j)) a)
      acc).length = acc.length := by
  induction is generalizing acc with
  | nil => rfl
  | cons i t ih =>
    simp only [List.foldl_cons]
    rw [ih, foldl_set2d_length]

theorem updateGrid_length (g : Grid) : (updateGrid g).length = g.length :=
  updateGrid_outer_length g _ g

theorem updateGrid_getD_row (g : Grid) (r : ℕ) (hr : r < g.length) :
    (updateGrid g).getD r [] =
      (List.range (numCols g)).foldl (fun r2 j => r2.set j (nextStateAt g r j)) (g.getD r []) := by
  unfold updateGrid
  rw [updateGrid_fold_getD g _ g r (List.nodup_range _), if_pos (List.mem_range.mpr hr)]

theorem updateGrid_row_length (g : Grid) (r : ℕ) (hr : r < g.length) :
    ((updateGrid g).getD r []).length = (g.getD r []).length := by
  rw [updateGrid_getD_row g r hr, foldl_set_length]

theorem updateGrid_cell (g : Grid) (hwf : WFGrid g) (r c : ℕ)
    (hr : r < g.length) (hc : c < numCols g) :
    cellN (updateGrid g) r c = nextStateAt g r c := by
  unfold cellN
  rw [updateGrid_getD_row g r hr, rowWrite_getD]
  have hlen : (g.getD r []).length = numCols g := hwf.1 _ (getD_mem_of_lt g hr)
  rw [if_pos ⟨hc, by omega⟩]

/-- C1: for every well-formed grid, updateGrid returns a grid of identical
dimensions in which each cell follows B3/S23 computed from the input
snapshot's neighbor counts: a live cell survives exactly with 2 or 3 live
Moore neighbors, a dead cell becomes alive exactly with 3. -/
theorem updateGrid_follows_B3S23 (g : Grid) (hwf : WFGrid g) :
    (updateGrid g).length = g.length ∧
    (∀ r, r < g.length → ((updateGrid g).getD r []).length = (g.getD r []).length) ∧
    (∀ r c, r < g.length → c < numCols g →
      cellN (updateGrid g) r c =
        if cellN g r c = 1 then
          (if countLiveNeighbors g (r : ℤ) (c : ℤ) = 2 ∨ countLiveNeighbors g (r : ℤ) (c : ℤ) = 3
            then 1 else 0)
        else (if countLiveNeighbors g (r : ℤ) (c : ℤ) = 3 then 1 else 0)) := by
  refine ⟨updateGrid_length g, fun r hr => updateGrid_row_length g r hr, fun r c hr hc => ?_⟩
  rw [updateGrid_cell g hwf r c hr hc]
  simp only [nextStateAt]
  rw [findNeighbors_eq_countLive g hwf]
  split_ifs <;> omega

/-- Witness for C1 at the blinker: the middle-row edge cell (1, 0) is live
with 1 live neighbor and dies. -/
theorem updateGrid_follows_B3S23_witness :
    cellN (updateGrid [[0,0,0],[1,1,1],[0,0,0]]) 1 0 =
      if cellN [[0,0,0],[1,1,1],[0,0,0]] 1 0 = 1 then
        (if countLiveNeighbors [[0,0,0],[1,1,1],[0,0,0]] (1 : ℤ) (0 : ℤ) = 2 ∨
            countLiveNeighbors [[0,0,0],[1,1,1],[0,0,0]] (1 : ℤ) (0 : ℤ) = 3
          then 1 else 0)
      else (if countLiveNeighbors [[0,0,0],[1,1,1],[0,0,0]] (1 : ℤ) (0 : ℤ) = 3 then 1 else 0) :=
  (updateGrid_follows_B3S23 [[0,0,0],[1,1,1],[0,0,0]] (by decide)).2.2 1 0 (by decide) (by decide)

/-- C2: for every well-formed grid and every position (inside or outside the
grid, hence the ℤ coordinates; the operation is total), findNeighbors returns
the number of live cells among the 8 Moore-neighborhood positions that lie
inside [0, rows) × [0, cols); out-of-bounds positions contribute 0. -/
theorem findNeighbors_moore_count (g : Grid) (hwf : WFGrid g) (r c : ℤ) :
    findNeighbors g r c = countLiveNeighbors g r c :=
  findNeighbors_eq_countLive g hwf r c

/-- Witness for C2 at the corner position (0, 0) of a 2×2 grid (three of the
eight neighbor positions are in bounds). -/
theorem findNeighbors_moore_count_witness :
    findNeighbors [[1,1],[1,0]] 0 0 = countLiveNeighbors [[1,1],[1,0]] 0 0 :=
  findNeighbors_moore_count [[1,1],[1,0]] (by decide) 0 0

/-! ## Helper lemmas: the store-level update loops -/

theorem mutStep_length (st : List Grid) (gRef nextRef i j : ℕ) :
    (mutStep st gRef nextRef i j).length = st.length := by
  simp [mutStep, List.length_set]

theorem mutFold_length (js : List ℕ) (gRef nextRef i : ℕ) (st : List Grid) :
    (js.foldl (fun st2 j => mutStep st2 gRef nextRef i j) st).length = st.length := by
  induction js generalizing st with
  | nil => rfl
  | cons j t ih =>
    simp only [List.foldl_cons]
    rw [ih, mutStep_length]

theorem mutFold_getD_ne (js : List ℕ) (gRef nextRef i r : ℕ) (st : List Grid)
    (h : r ≠ nextRef) :
    (js.foldl (fun st2 j => mutStep st2 gRef nextRef i j) st).getD r [] = st.getD r [] := by
  induction js generalizing st with
  | nil => rfl
  | cons j t ih =>
    simp only [List.foldl_cons]
    rw [ih, mutStep, getD_set_ne _ _ _ _ _ (fun hh => h hh.symm)]

theorem mutFold_getD_eq (js : List ℕ) (gRef nextRef i : ℕ) (st : List Grid)
    (hne : gRef ≠ nextRef) (hlt : nextRef < st.length) :
    (js.foldl (fun st2 j => mutStep st2 gRef nextRef i j) st).getD nextRef [] =
      js.foldl (fun n j => set2d n i j (nextStateAt (st.getD gRef []) i j))
        (st.getD nextRef []) := by
  induction js generalizing st with
  | nil => rfl
  | cons j t ih =>
    simp only [List.foldl_cons]
    have h1 : (mutStep st gRef nextRef i j).getD gRef [] = st.getD gRef [] := by
      rw [mutStep]
      exact getD_set_ne _ _ _ _ _ (Ne.symm hne)
    have h2 : (mutStep st gRef nextRef i j).getD nextRef [] =
        set2d (st.getD nextRef []) i j (nextStateAt (st.getD gRef []) i j) := by
      rw [mutStep]
      exact getD_set_eq _ _ _ _ hlt
    rw [ih _ (by rw [mutStep_length]; exact hlt), h1, h2]

theorem mutOuter_getD_ne (is : List ℕ) (cols gRef nextRef r : ℕ) (st : List Grid)
    (h : r ≠ nextRef) :
    (is.foldl (fun st1 i =>
        (List.range cols).foldl (fun st2 j => mutStep st2 gRef nextRef i j) st1) st).getD r [] =
      st.getD r [] := by
  induction is generalizing st with
  | nil => rfl
  | cons i t ih =>
    simp only [List.foldl_cons]
    rw [ih, mutFold_getD_ne _ _ _ _ _ _ h]

theorem mutOuter_length (is : List ℕ) (cols gRef nextRef : ℕ) (st : List Grid) :
    (is.foldl (fun st1 i =>
        (List.range cols).foldl (fun st2 j => mutStep st2 gRef nextRef i j) st1) st).length =
      st.length := by
  induction is generalizing st with
  | nil => rfl
  | cons i t ih =>
    simp only [List.foldl_cons]
    rw [ih, mutFold_length]

theorem mutOuter_getD_eq (is : List ℕ) (cols gRef nextRef : ℕ) (st : List Grid)
    (hne : gRef ≠ nextRef) (hlt : nextRef < st.length) :
    (is.foldl (fun st1 i =>
        (List.range cols).foldl (fun st2 j => mutStep st2 gRef nextRef i j) st1) st).getD
      nextRef [] =
      is.foldl (fun acc i =>
        (List.range cols).foldl (fun n j => set2d n i j (nextStateAt (st.getD gRef []) i j)) acc)
        (st.getD nextRef []) := by
  induction is generalizing st with
  | nil => rfl
  | cons i t ih =>
    simp only [List.foldl_cons]
    have h1 : ∀ st2 : List Grid,
        ((List.range cols).foldl (fun st2 j => mutStep st2 gRef nextRef i j) st2).getD gRef [] =
          st2.getD gRef [] :=
      fun st2 => mutFold_getD_ne _ _ _ _ _ _ hne
    rw [ih _ (by rw [mutFold_length]; exact hlt), h1, mutFold_getD_eq _ _ _ _ _ hne hlt]

/-- C10: at heap level, updateGrid writes the computed next generation back
into the array object it was given and returns that same object: the returned
reference is the argument reference, the store afterwards holds the new
generation (equal to the pure updateGrid of the old contents) at that
reference — so the previous generation's values are no longer reachable
through it — and every other object is untouched. -/
theorem updateGridMut_writes_back (store : List Grid) (gRef : ℕ) (h : gRef < store.length) :
    (updateGridMut store gRef).1 = gRef ∧
    ((updateGridMut store gRef).2).getD gRef [] = updateGrid (store.getD gRef []) ∧
    (∀ r, r < store.length → r ≠ gRef →
      ((updateGridMut store gRef).2).getD r [] = store.getD r []) := by
  have hne : gRef ≠ store.length := by omega
  have happL : ∀ r, r < store.length → (store ++ [store.getD gRef []]).getD r [] = store.getD r [] :=
    fun r hr => List.getD_append _ _ _ _ hr
  have happR : (store ++ [store.getD gRef []]).getD store.length [] = store.getD gRef [] := by
    simp [List.getD_eq_getElem?_getD, List.getElem?_concat_length]
  refine ⟨rfl, ?_, ?_⟩
  · show (_ : List Grid).getD gRef [] = _
    unfold updateGridMut
    have hlen : (store ++ [store.getD gRef []]).length = store.length + 1 := by simp
    rw [getD_set_eq _ _ _ _ (by rw [mutOuter_length, hlen]; omega)]
    rw [mutOuter_getD_eq _ _ _ _ _ hne (by omega)]
    rw [happL gRef h, happR]
    rfl
  · intro r hr hrg
    unfold updateGridMut
    rw [getD_set_ne _ _ _ _ _ (fun hh => hrg hh.symm)]
    rw [mutOuter_getD_ne _ _ _ _ _ _ (by omega)]
    exact happL r hr

/-- Witness for C10 on a one-object store holding a 2×2 block neighborhood. -/
theorem updateGridMut_writes_back_witness :
    (updateGridMut [[[1,1],[1,1]]] 0).1 = 0 ∧
    ((updateGridMut [[[1,1],[1,1]]] 0).2).getD 0 [] = updateGrid ([[[1,1],[1,1]]].getD 0 []) ∧
    (∀ r, r < ([[[1,1],[1,1]]] : List Grid).length → r ≠ 0 →
      ((updateGridMut [[[1,1],[1,1]]] 0).2).getD r [] = ([[[1,1],[1,1]]] : List Grid).getD r []) :=
  updateGridMut_writes_back [[[1,1],[1,1]]] 0 (by decide)

/-! ## Helper lemmas: addSpace geometry -/

theorem getD_append_zero (row : List ℕ) (i : ℕ) : (row ++ [0]).getD i 0 = row.getD i 0 := by
  rcases lt_trichotomy i row.length with h | h | h
  · rw [List.getD_eq_getElem?_getD, List.getElem?_append_left h, ← List.getD_eq_getElem?_getD]
  · subst h
    rw [List.getD_eq_getElem?_getD, List.getElem?_concat_length,
      getD_out_of_range _ _ _ (le_refl _)]
    rfl
  · rw [getD_out_of_range _ _ _ (by simp; omega), getD_out_of_range _ _ _ (by omega)]

theorem getD_replicate_zero (n i : ℕ) : (List.replicate n (0:ℕ)).getD i 0 = 0 := by
  rcases lt_or_le i n with h | h
  · rw [List.getD_eq_getElem?_getD, List.getElem?_replicate_of_lt h]
    rfl
  · rw [getD_out_of_range _ _ _ (by simpa using h)]

theorem map_getD_lt (l : Grid) (f : List ℕ → List ℕ) (r : ℕ) (h : r < l.length) :
    (l.map f).getD r [] = f (l.getD r []) := by
  rw [List.getD_eq_getElem?_getD, List.getElem?_map, List.getElem?_eq_getElem h,
    List.getD_eq_getElem?_getD, List.getElem?_eq_getElem h]
  rfl

theorem cellN_row_oob (g : Grid) (a b : ℕ) (h : g.length ≤ a) : cellN g a b = 0 := by
  unfold cellN
  rw [getD_out_of_range _ _ _ h]
  rfl

theorem numCols_append_zrow (g : Grid) :
    numCols (g ++ [List.replicate (numCols g) 0]) = numCols g := by
  cases g with
  | nil => rfl
  | cons h t => rfl

theorem addRing_eq (g : Grid) :
    addRing g = (0 :: (List.replicate (numCols g) 0 ++ [0])) ::
      (g.map (fun row => 0 :: (row ++ [0])) ++ [0 :: (List.replicate (numCols g) 0 ++ [0])]) := by
  unfold addRing
  dsimp only
  rw [numCols_append_zrow]
  simp [List.map_append, Function.comp]

theorem zrow_getD (n c : ℕ) : (0 :: (List.replicate n (0:ℕ) ++ [0])).getD c 0 = 0 := by
  cases c with
  | zero => rfl
  | succ c2 =>
    rw [List.getD_cons_succ, getD_append_zero, getD_replicate_zero]

theorem cellN_addRing (g : Grid) (r c : ℕ) :
    cellN (addRing g) r c = if 1 ≤ r ∧ 1 ≤ c then cellN g (r - 1) (c - 1) else 0 := by
  rw [addRing_eq]
  cases r with
  | zero =>
    rw [if_neg (by omega)]
    unfold cellN
    rw [List.getD_cons_zero, zrow_getD]
  | succ r2 =>
    have hstep : cellN ((0 :: (List.replicate (numCols g) 0 ++ [0])) ::
        (g.map (fun row => 0 :: (row ++ [0])) ++ [0 :: (List.replicate (numCols g) 0 ++ [0])]))
        (r2 + 1) c =
        ((g.map (fun row => 0 :: (row ++ [0])) ++
          [0 :: (List.replicate (numCols g) 0 ++ [0])]).getD r2 []).getD c 0 := by
      unfold cellN
      rw [List.getD_cons_succ]
    rw [hstep]
    rcases lt_trichotomy r2 g.length with hr | hr | hr
    · have hrow : (g.map (fun row => 0 :: (row ++ [0])) ++
          [0 :: (List.replicate (numCols g) 0 ++ [0])]).getD r2 [] =
          0 :: (g.getD r2 [] ++ [0]) := by
        rw [List.getD_eq_getElem?_getD, List.getElem?_append_left (by simpa using hr),
          List.getElem?_map, List.getElem?_eq_getElem hr]
        simp [List.getD_eq_getElem?_getD, List.getElem?_eq_getElem hr]
      rw [hrow]
      cases c with
      | zero => rw [if_neg (by omega)]; rfl
      | succ c2 =>
        rw [if_pos ⟨by omega, by omega⟩, List.getD_cons_succ, getD_append_zero]
        simp [cellN]
    · subst hr
      have hrow : (g.map (fun row => 0 :: (row ++ [0])) ++
          [0 :: (List.replicate (numCols g) 0 ++ [0])]).getD g.length [] =
          0 :: (List.replicate (numCols g) 0 ++ [0]) := by
        have hlen : (g.map (fun row => 0 :: (row ++ [0]))).length = g.length := by simp
        rw [List.getD_eq_getElem?_getD, ← hlen, List.getElem?_concat_length]
        rfl
      rw [hrow, zrow_getD]
      rw [Nat.add_sub_cancel, cellN_row_oob g _ _ (le_refl _)]
      simp
    · have hrow : (g.map (fun row => 0 :: (row ++ [0])) ++
          [0 :: (List.replicate (numCols g) 0 ++ [0])]).getD r2 [] = ([] : List ℕ) :=
        getD_out_of_range _ _ _ (by simp; omega)
      rw [hrow, Nat.add_sub_cancel, cellN_row_oob g _ _ (by omega)]
      simp [List.getD_nil]

theorem addRing_length (g : Grid) : (addRing g).length = g.length + 2 := by
  rw [addRing_eq]
  simp

theorem numCols_addRing (g : Grid) : numCols (addRing g) = numCols g + 2 := by
  rw [addRing_eq]
  simp [numCols]

theorem addRing_rect (g : Grid) (hrect : Rectangular g) : Rectangular (addRing g) := by
  intro row hrow
  rw [numCols_addRing]
  rw [addRing_eq] at hrow
  rcases List.mem_cons.mp hrow with h | h
  · subst h; simp
  · rcases List.mem_append.mp h with h2 | h2
    · obtain ⟨row0, hmem, hEq⟩ := List.mem_map.mp h2
      subst hEq
      simp [hrect _ hmem]
    · simp at h2
      subst h2
      simp

theorem addSpace_length (g : Grid) (n : ℕ) : (addSpace g n).length = g.length + 2 * n := by
  induction n generalizing g with
  | zero => rfl
  | succ m ih =>
    show (addSpace (addRing g) m).length = _
    rw [ih, addRing_length]
    omega

theorem numCols_addSpace (g : Grid) (n : ℕ) : numCols (addSpace g n) = numCols g + 2 * n := by
  induction n generalizing g with
  | zero => rfl
  | succ m ih =>
    show numCols (addSpace (addRing g) m) = _
    rw [ih, numCols_addRing]
    omega

theorem addSpace_rect (g : Grid) (n : ℕ) (hrect : Rectangular g) :
    Rectangular (addSpace g n) := by
  induction n generalizing g with
  | zero => exact hrect
  | succ m ih => exact ih _ (addRing_rect g hrect)

theorem cellN_addSpace (g : Grid) (n : ℕ) : ∀ r c,
    cellN (addSpace g n) r c = if n ≤ r ∧ n ≤ c then cellN g (r - n) (c - n) else 0 := by
  induction n generalizing g with
  | zero =>
    intro r c
    rw [show addSpace g 0 = g from rfl]
    simp
  | succ m ih =>
    intro r c
    show cellN (addSpace (addRing g) m) r c = _
    rw [ih]
    by_cases h : m ≤ r ∧ m ≤ c
    · rw [if_pos h, cellN_addRing]
      by_cases h2 : 1 ≤ r - m ∧ 1 ≤ c - m
      · rw [if_pos h2, if_pos (by omega)]
        congr 1 <;> omega
      · rw [if_neg h2, if_neg (by omega)]
    · rw [if_neg h, if_neg (by omega)]

theorem cellN_col_oob (g : Grid) (hrect : Rectangular g) (a b : ℕ) (h : numCols g ≤ b) :
    cellN g a b = 0 := by
  rcases lt_or_le a g.length with ha | ha
  · unfold cellN
    rw [getD_out_of_range]
    rw [hrect _ (getD_mem_of_lt g ha)]
    exact h
  · exact cellN_row_oob g a b ha

/-- C7: addSpace g n produces a (rows + 2n) × (cols + 2n) grid whose cell at
(r + n, c + n) equals the cell of g at (r, c) for all valid (r, c), and every
newly introduced border cell is dead. -/
theorem addSpace_preserves_content (g : Grid) (n : ℕ) (hrect : Rectangular g) :
    (addSpace g n).length = g.length + 2 * n ∧
    numCols (addSpace g n) = numCols g + 2 * n ∧
    (∀ r c, r < g.length → c < numCols g → cellN (addSpace g n) (r + n) (c + n) = cellN g r c) ∧
    (∀ r c, r < g.length + 2 * n → c < numCols g + 2 * n →
      (r < n ∨ g.length + n ≤ r ∨ c < n ∨ numCols g + n ≤ c) →
      cellN (addSpace g n) r c = 0) := by
  refine ⟨addSpace_length g n, numCols_addSpace g n, ?_, ?_⟩
  · intro r c _ _
    rw [cellN_addSpace g n, if_pos ⟨by omega, by omega⟩]
    congr 1 <;> omega
  · intro r c _ _ hborder
    rw [cellN_addSpace g n]
    by_cases hin : n ≤ r ∧ n ≤ c
    · rw [if_pos hin]
      rcases hborder with h | h | h | h
      · omega
      · exact cellN_row_oob g _ _ (by omega)
      · omega
      · exact cellN_col_oob g hrect _ _ (by omega)
    · rw [if_neg hin]

/-- Witness for C7: one ring around the single live cell [[1]]. -/
theorem addSpace_preserves_content_witness :
    (addSpace [[1]] 1).length = 1 + 2 * 1 ∧
    numCols (addSpace [[1]] 1) = 1 + 2 * 1 ∧
    (∀ r c, r < ([[1]] : Grid).length → c < numCols [[1]] →
      cellN (addSpace [[1]] 1) (r + 1) (c + 1) = cellN [[1]] r c) ∧
    (∀ r c, r < ([[1]] : Grid).length + 2 * 1 → c < numCols [[1]] + 2 * 1 →
      (r < 1 ∨ ([[1]] : Grid).length + 1 ≤ r ∨ c < 1 ∨ numCols [[1]] + 1 ≤ c) →
      cellN (addSpace [[1]] 1) r c = 0) :=
  addSpace_preserves_content [[1]] 1 (by decide)

/-- C9 counterexample: for a 3×10 all-dead grid and requested size 5, the
per-axis deficits are 2 and 0, so the claim predicts 2 rings (a 7×14 result);
the code uses max(abs(5-3), abs(5-10)) = 5 rings (a 13×20 result). -/
theorem createAnimationGrid_deficit_cex :
    createAnimationGrid (List.replicate 3 (List.replicate 10 (0:ℕ))) 5 ≠
      addSpace (List.replicate 3 (List.replicate 10 (0:ℕ))) (max (5 - 3) (5 - 10)) := by
  decide

/-- C9 amended: when the requested display size exceeds the row or column
count, the driver resizes by max(|size - rows|, |size - cols|) rings (the
absolute differences, so a surplus axis can inflate the count); both axes of
the result are nevertheless at least the requested size, and a grid already
meeting the requested size in both dimensions is passed through unchanged. -/
theorem createAnimationGrid_meets_size (g : Grid) (s : ℕ) :
    ((g.length < s ∨ numCols g < s) →
      createAnimationGrid g s =
        addSpace g (max ((s : ℤ) - (g.length : ℤ)).natAbs ((s : ℤ) - (numCols g : ℤ)).natAbs)) ∧
    s ≤ (createAnimationGrid g s).length ∧
    s ≤ numCols (createAnimationGrid g s) ∧
    (¬(g.length < s ∨ numCols g < s) → createAnimationGrid g s = g) := by
  unfold createAnimationGrid animationRings
  by_cases h : g.length < s ∨ numCols g < s
  · rw [if_pos h]
    have hm1 := Nat.le_max_left ((s : ℤ) - (g.length : ℤ)).natAbs
      ((s : ℤ) - (numCols g : ℤ)).natAbs
    have hm2 := Nat.le_max_right ((s : ℤ) - (g.length : ℤ)).natAbs
      ((s : ℤ) - (numCols g : ℤ)).natAbs
    refine ⟨fun _ => rfl, ?_, ?_, fun hn => absurd h hn⟩
    · rw [addSpace_length]
      omega
    · rw [numCols_addSpace]
      omega
  · rw [if_neg h]
    exact ⟨fun h2 => absurd h2 h, by omega, by omega, fun _ => rfl⟩

/-- Witness for C9 (amended) at the 3×10 grid with requested size 5. -/
theorem createAnimationGrid_meets_size_witness :
    ((List.replicate 3 (List.replicate 10 (0:ℕ)) : Grid).length < 5 ∨
      numCols (List.replicate 3 (List.replicate 10 (0:ℕ))) < 5 →
      createAnimationGrid (List.replicate 3 (List.replicate 10 (0:ℕ))) 5 =
        addSpace (List.replicate 3 (List.replicate 10 (0:ℕ)))
          (max ((5 : ℤ) - ((List.replicate 3 (List.replicate 10 (0:ℕ)) : Grid).length : ℤ)).natAbs
            ((5 : ℤ) - (numCols (List.replicate 3 (List.replicate 10 (0:ℕ))) : ℤ)).natAbs)) ∧
    5 ≤ (createAnimationGrid (List.replicate 3 (List.replicate 10 (0:ℕ))) 5).length ∧
    5 ≤ numCols (createAnimationGrid (List.replicate 3 (List.replicate 10 (0:ℕ))) 5) ∧
    (¬((List.replicate 3 (List.replicate 10 (0:ℕ)) : Grid).length < 5 ∨
        numCols (List.replicate 3 (List.replicate 10 (0:ℕ))) < 5) →
      createAnimationGrid (List.replicate 3 (List.replicate 10 (0:ℕ))) 5 =
        List.replicate 3 (List.replicate 10 (0:ℕ))) :=
  createAnimationGrid_meets_size (List.replicate 3 (List.replicate 10 (0:ℕ))) 5

/-- C5 (code defect): on the 1×3 grid with a single live cell at column 1,
the elif in the column scan never fires (the live cell always lowers minCol
first), so maxCol keeps its -inf sentinel (none) instead of the true largest
live column index 1; the claims maxCol = 1 and minCol ≤ maxCol both fail. -/
theorem findBoundaries_maxCol_bug :
    findBoundaries [[0,1,0]] = (0, 0, some 1, none) ∧ specMaxCol [[0,1,0]] = 1 := by
  decide

/-! ## Helper lemmas: decimal rendering and parsing -/

/-- c is one of the ten decimal digit characters. -/
def isDigitCh (c : Char) : Prop := '0' ≤ c ∧ c ≤ '9'

instance : DecidablePred isDigitCh := fun c =>
  inferInstanceAs (Decidable (_ ∧ _))

theorem digitCh_isDigit : ∀ d, d < 10 → isDigitCh (digitCh d) := by decide

theorem digitVal_digitCh : ∀ d, d < 10 → digitVal (digitCh d) = some d := by decide

theorem natDigits_ne_nil (n : ℕ) : natDigits n ≠ [] := by
  unfold natDigits
  split
  · simp
  · simp [Nat.digits_ne_nil_iff_ne_zero, *]

theorem natDigits_digits (n : ℕ) : ∀ c ∈ natDigits n, isDigitCh c := by
  intro c hc
  unfold natDigits at hc
  split at hc
  · simp at hc
    subst hc
    decide
  · rw [List.mem_reverse] at hc
    obtain ⟨d, hd, hEq⟩ := List.mem_map.mp hc
    subst hEq
    exact digitCh_isDigit d (Nat.digits_lt_base (by norm_num) hd)

theorem isDigitCh_not_space {c : Char} (h : isDigitCh c) : isSpaceCh c = false := by
  obtain ⟨h1, h2⟩ := h
  simp only [isSpaceCh]
  have e1 : c ≠ ' ' := fun hh => by rw [hh] at h1; exact absurd h1 (by decide)
  have e2 : c ≠ '\t' := fun hh => by rw [hh] at h1; exact absurd h1 (by decide)
  have e3 : c ≠ '\n' := fun hh => by rw [hh] at h1; exact absurd h1 (by decide)
  have e4 : c ≠ '\r' := fun hh => by rw [hh] at h1; exact absurd h1 (by decide)
  simp [e1, e2, e3, e4]

theorem dropWhile_eq_self_of_not {α} (p : α → Bool) (l : List α)
    (h : ∀ c ∈ l, p c = false) : l.dropWhile p = l := by
  cases l with
  | nil => rfl
  | cons a t => rw [List.dropWhile_cons_of_neg (by simp [h a (List.mem_cons_self a t)])]

theorem pyStrip_id (l : List Char) (h : ∀ c ∈ l, isSpaceCh c = false) : pyStrip l = l := by
  unfold pyStrip
  rw [dropWhile_eq_self_of_not _ _ h,
    dropWhile_eq_self_of_not _ _ (fun c hc => h c (List.mem_reverse.mp hc)),
    List.reverse_reverse]

theorem parseFold (ds : List ℕ) (h : ∀ d ∈ ds, d < 10) (a : ℕ) :
    ((ds.map digitCh).reverse).foldl
        (fun acc c => acc.bind (fun a2 => (digitVal c).map (fun d2 => a2 * 10 + d2)))
        (some a) =
      some (Nat.ofDigits 10 ds + a * 10 ^ ds.length) := by
  induction ds generalizing a with
  | nil => simp
  | cons d t ih =>
    simp only [List.map_cons, List.reverse_cons, List.foldl_append, List.foldl_cons,
      List.foldl_nil]
    rw [ih (fun x hx => h x (List.mem_cons_of_mem _ hx))]
    rw [digitVal_digitCh d (h d (List.mem_cons_self d t))]
    simp only [Option.some_bind, Option.map_some', List.length_cons, Nat.ofDigits_cons]
    congr 1
    ring

theorem parseNatDigits_natDigits (n : ℕ) : parseNatDigits (natDigits n) = some n := by
  unfold parseNatDigits
  rw [if_neg (natDigits_ne_nil n)]
  by_cases h : n = 0
  · subst h
    decide
  · have hEq : natDigits n = ((Nat.digits 10 n).map digitCh).reverse := by
      unfold natDigits
      rw [if_neg h]
    rw [hEq, parseFold _ (fun d hd => Nat.digits_lt_base (by norm_num) hd) 0]
    rw [Nat.ofDigits_digits]
    simp

theorem natDigits_head_not_sign (n : ℕ) :
    ∀ c cs, natDigits n = c :: cs → c ≠ '-' ∧ c ≠ '+' := by
  intro c cs hEq
  have hc : isDigitCh c := natDigits_digits n c (hEq ▸ List.mem_cons_self c cs)
  constructor
  · intro hh
    rw [hh] at hc
    exact absurd hc (by decide)
  · intro hh
    rw [hh] at hc
    exact absurd hc (by decide)

theorem pyInt_natDigits (n : ℕ) : pyInt (natDigits n) = some (n : ℤ) := by
  have hstrip : pyStrip (natDigits n) = natDigits n :=
    pyStrip_id _ (fun c hc => isDigitCh_not_space (natDigits_digits n c hc))
  obtain ⟨c, cs, hcons⟩ : ∃ c cs, natDigits n = c :: cs := by
    cases hh : natDigits n with
    | nil => exact absurd hh (natDigits_ne_nil n)
    | cons c cs => exact ⟨c, cs, rfl⟩
  obtain ⟨hm, hp⟩ := natDigits_head_not_sign n c cs hcons
  unfold pyInt
  rw [hstrip, hcons]
  split
  · rename_i rest heq
    injection heq with h1 _
    exact absurd h1 hm
  · rename_i rest heq
    injection heq with h1 _
    exact absurd h1 hp
  · rw [← hcons, parseNatDigits_natDigits]
    simp

theorem pyStr_nonneg (k : ℤ) (h : 0 ≤ k) : pyStr k = natDigits k.toNat := by
  unfold pyStr
  rw [if_neg (by omega)]

theorem pyInt_pyStr (k : ℤ) : pyInt (pyStr k) = some k := by
  by_cases h : k < 0
  · have hEq : pyStr k = '-' :: natDigits k.natAbs := by
      unfold pyStr
      rw [if_pos h]
    have hstrip : pyStrip ('-' :: natDigits k.natAbs) = '-' :: natDigits k.natAbs := by
      apply pyStrip_id
      intro c hc
      rcases List.mem_cons.mp hc with h2 | h2
      · subst h2
        decide
      · exact isDigitCh_not_space (natDigits_digits _ c h2)
    rw [hEq]
    unfold pyInt
    rw [hstrip]
    split
    · rename_i rest heq
      injection heq with _ h2
      subst h2
      rw [parseNatDigits_natDigits]
      have hk : ((k.natAbs : ℕ) : ℤ) = -k := by omega
      simp [hk]
    · rename_i rest heq
      injection heq with h1 _
      exact absurd h1.symm (by decide)
    · rename_i hno1 hno2
      exact absurd rfl (hno1 (natDigits k.natAbs))
  · rw [pyStr_nonneg k (by omega), pyInt_natDigits]
    congr 1
    omega

theorem pyStr_digits (k : ℤ) (h : 0 ≤ k) : ∀ c ∈ pyStr k, isDigitCh c := by
  rw [pyStr_nonneg k h]
  exact natDigits_digits k.toNat

/-! ## Helper lemmas: splitting -/

theorem splitOnChar_not_mem (sep : Char) (l : List Char) (h : sep ∉ l) :
    splitOnChar sep l = [l] := by
  induction l with
  | nil => rfl
  | cons c cs ih =>
    have hc : c ≠ sep := fun hh => h (hh ▸ List.mem_cons_self c cs)
    unfold splitOnChar
    rw [ih (fun hh => h (List.mem_cons_of_mem _ hh))]
    simp [hc]

theorem splitOnChar_append (sep : Char) (A B : List Char) (h : sep ∉ A) :
    splitOnChar sep (A ++ sep :: B) = A :: splitOnChar sep B := by
  induction A with
  | nil =>
    show splitOnChar sep (sep :: B) = [] :: splitOnChar sep B
    conv_lhs => rw [splitOnChar.eq_def]
    simp
  | cons a t ih =>
    have ha : a ≠ sep := fun hh => h (hh ▸ List.mem_cons_self a t)
    show splitOnChar sep (a :: (t ++ sep :: B)) = _
    conv_lhs => rw [splitOnChar.eq_def]
    simp only [ha, if_false, ite_false, if_neg]
    rw [ih (fun hh => h (List.mem_cons_of_mem _ hh))]

theorem splitOnTags_ne_nil (l : List Char) : ∃ s0 ss, (splitOnTags l).1 = s0 :: ss := by
  induction l with
  | nil => exact ⟨[], [], rfl⟩
  | cons c cs ih =>
    obtain ⟨s0, ss, hEq⟩ := ih
    have hpair : splitOnTags cs = (s0 :: ss, (splitOnTags cs).2) := by
      rw [← hEq]
    unfold splitOnTags
    rw [hpair]
    dsimp only
    by_cases hc : c = 'b' ∨ c = 'o'
    · rw [if_pos hc]
      exact ⟨[], s0 :: ss, rfl⟩
    · rw [if_neg hc]
      exact ⟨c :: s0, ss, rfl⟩

theorem splitOnTags_tag (c : Char) (hc : c = 'b' ∨ c = 'o') (l : List Char) :
    splitOnTags (c :: l) = ([] :: (splitOnTags l).1, c :: (splitOnTags l).2) := by
  rcases hsp : splitOnTags l with ⟨segs, tags⟩
  conv_lhs => rw [splitOnTags.eq_def]
  dsimp only
  rw [hsp]
  dsimp only
  rw [if_pos hc]

theorem splitOnTags_pre (s : List Char) (h : ∀ c ∈ s, ¬(c = 'b' ∨ c = 'o'))
    (l : List Char) (s0 : List Char) (ss : List (List Char)) (tags : List Char)
    (hl : splitOnTags l = (s0 :: ss, tags)) :
    splitOnTags (s ++ l) = ((s ++ s0) :: ss, tags) := by
  induction s with
  | nil => simpa using hl
  | cons a t ih =>
    have ha := h a (List.mem_cons_self a t)
    show splitOnTags (a :: (t ++ l)) = _
    conv_lhs => rw [splitOnTags.eq_def]
    dsimp only
    rw [ih (fun c hc => h c (List.mem_cons_of_mem _ hc))]
    dsimp only
    rw [if_neg ha]
    simp

/-- C8 counterexample: the body token stream zo! holds the unsupported
character z, yet decode succeeds and returns the 1×1 live grid — the z is
silently discarded (int('z') raises ValueError, which the source catches and
replaces by run count 1). -/
theorem parseRLE_junk_char_cex :
    parseRLE [['x', ' ', '=', ' ', '1', ',', ' ', 'y', ' ', '=', ' ', '1'],
      ['z', 'o', '!']] = .ok [[1]] := by
  rfl

/-- C8 amended: a run of characters outside the supported alphabet sitting
before a cell tag never raises an error: the whole segment is handed to
int(), the resulting ValueError is answered with the default run count 1, and
decoding continues with the rest of the chunk — the junk is silently
swallowed. -/
theorem expandChunk_junk_absorbed (s t : List Char)
    (h1 : ∀ c ∈ s, ¬(c = 'b' ∨ c = 'o')) (h2 : pyInt s = none) :
    expandChunk (s ++ 'o' :: t) = 1 :: expandChunk t := by
  obtain ⟨s0, ss, hl⟩ := splitOnTags_ne_nil t
  have hpair : splitOnTags t = (s0 :: ss, (splitOnTags t).2) := by
    rw [← hl]
  have htag : splitOnTags ('o' :: t) = ([] :: s0 :: ss, 'o' :: (splitOnTags t).2) := by
    rw [splitOnTags_tag 'o' (Or.inr rfl) t, hl]
  have hpre : splitOnTags (s ++ 'o' :: t) = ((s ++ []) :: s0 :: ss, 'o' :: (splitOnTags t).2) :=
    splitOnTags_pre s h1 _ _ _ _ htag
  unfold expandChunk
  rw [hpre, hpair]
  dsimp only
  rw [List.zip_cons_cons, List.flatMap_cons]
  simp [h2]

/-- Witness for C8 (amended) at the junk segment z before tag o. -/
theorem expandChunk_junk_absorbed_witness :
    expandChunk (['z'] ++ 'o' :: []) = 1 :: expandChunk [] :=
  expandChunk_junk_absorbed ['z'] [] (by decide) (by decide)

/-! ## Helper lemmas: the header line -/

theorem pyStr_ne_nil (k : ℤ) : pyStr k ≠ [] := by
  unfold pyStr
  split
  · simp
  · exact natDigits_ne_nil _

theorem pyStr_chars (k : ℤ) : ∀ c ∈ pyStr k, isDigitCh c ∨ c = '-' := by
  intro c hc
  unfold pyStr at hc
  split at hc
  · rcases List.mem_cons.mp hc with h | h
    · exact Or.inr h
    · exact Or.inl (natDigits_digits _ c h)
  · exact Or.inl (natDigits_digits _ c hc)

theorem pyStr_getLast_digit (k : ℤ) : ∀ h, isDigitCh ((pyStr k).getLast h) := by
  intro h
  unfold pyStr at h ⊢
  split
  · rename_i hneg
    rw [List.getLast_cons (natDigits_ne_nil k.natAbs)]
    exact natDigits_digits _ _ (List.getLast_mem _)
  · exact natDigits_digits _ _ (List.getLast_mem _)

theorem pyStrip_cons_space (l : List Char) : pyStrip (' ' :: l) = pyStrip l := by
  unfold pyStrip
  rw [List.dropWhile_cons_of_pos (by decide)]

theorem pyInt_cons_space (l : List Char) : pyInt (' ' :: l) = pyInt l := by
  unfold pyInt
  rw [pyStrip_cons_space]

theorem pyStrip_id_edges (l : List Char)
    (h1 : ∀ c, l.head? = some c → isSpaceCh c = false)
    (h2 : ∀ c, l.getLast? = some c → isSpaceCh c = false) : pyStrip l = l := by
  cases hl : l with
  | nil => rfl
  | cons c cs =>
    subst hl
    unfold pyStrip
    rw [List.dropWhile_cons_of_neg (by simp [h1 c rfl])]
    obtain ⟨d, ds, hrev⟩ : ∃ d ds, (c :: cs).reverse = d :: ds := by
      cases hh : (c :: cs).reverse with
      | nil => exact absurd hh (by simp)
      | cons d ds => exact ⟨d, ds, rfl⟩
    have hd : isSpaceCh d = false := by
      apply h2
      rw [← List.head?_reverse, hrev]
      rfl
    rw [hrev, List.dropWhile_cons_of_neg (by simp [hd]), ← hrev, List.reverse_reverse]

theorem getLast_eq_of_getLast? {l : List Char} {d : Char} (h : l.getLast? = some d)
    (hne : l ≠ []) : l.getLast hne = d :=
  Option.some_injective _ ((List.getLast?_eq_getLast l hne).symm.trans h)

theorem getLast?_append_right {A l : List Char} {d : Char} (h : l.getLast? = some d) :
    (A ++ l).getLast? = some d := by
  rw [List.getLast?_append, h]
  rfl

theorem pyStr_getLast? (k : ℤ) : ∃ d, (pyStr k).getLast? = some d ∧ isDigitCh d := by
  refine ⟨(pyStr k).getLast (pyStr_ne_nil k), List.getLast?_eq_getLast _ _, ?_⟩
  exact pyStr_getLast_digit k _

theorem not_mem_pyStr {c : Char} (k : ℤ) (h1 : ¬ isDigitCh c) (h2 : c ≠ '-') :
    c ∉ pyStr k := by
  intro hc
  rcases pyStr_chars k c hc with h | h
  · exact h1 h
  · exact h2 h

theorem splitComma_hdrChars (x y : ℤ) :
    splitOnChar ',' (hdrChars x y) =
      [['x', ' ', '=', ' '] ++ pyStr x, ' ' :: (['y', ' ', '=', ' '] ++ pyStr y)] := by
  have hform : hdrChars x y =
      (['x', ' ', '=', ' '] ++ pyStr x) ++ ',' :: (' ' :: (['y', ' ', '=', ' '] ++ pyStr y)) := by
    simp [hdrChars]
  rw [hform, splitOnChar_append, splitOnChar_not_mem]
  · intro hc
    rcases List.mem_cons.mp hc with h | h
    · exact absurd h (by decide)
    · rcases List.mem_append.mp h with h2 | h2
      · exact absurd h2 (by decide)
      · exact not_mem_pyStr y (by decide) (by decide) h2
  · intro hc
    rcases List.mem_append.mp hc with h | h
    · exact absurd h (by decide)
    · exact not_mem_pyStr x (by decide) (by decide) h

theorem strip_eqPart (z : Char) (k : ℤ) (hz : isSpaceCh z = false) :
    pyStrip ([z, ' ', '=', ' '] ++ pyStr k) = [z, ' ', '=', ' '] ++ pyStr k := by
  obtain ⟨d, hd, hdig⟩ := pyStr_getLast? k
  apply pyStrip_id_edges
  · intro c hc
    have hcz : z = c := by injection hc
    rw [← hcz]
    exact hz
  · intro c hc
    rw [getLast?_append_right hd] at hc
    have hdc : d = c := by injection hc
    rw [← hdc]
    exact isDigitCh_not_space hdig

theorem splitEq_part (z : Char) (k : ℤ) (hz : z ≠ '=') :
    splitOnChar '=' ([z, ' ', '=', ' '] ++ pyStr k) = [[z, ' '], ' ' :: pyStr k] := by
  have hform : [z, ' ', '=', ' '] ++ pyStr k = [z, ' '] ++ '=' :: (' ' :: pyStr k) := rfl
  rw [hform, splitOnChar_append, splitOnChar_not_mem]
  · intro hc
    rcases List.mem_cons.mp hc with h | h
    · exact absurd h (by decide)
    · exact not_mem_pyStr k (by decide) (by decide) h
  · intro hc
    rcases List.mem_cons.mp hc with h | h
    · exact hz h.symm
    · rcases List.mem_cons.mp h with h2 | h2
      · exact absurd h2 (by decide)
      · simp at h2

theorem parseHeaderLine_hdrChars (x y : ℤ) :
    parseHeaderLine (hdrChars x y) = .ok (x, y) := by
  unfold parseHeaderLine
  rw [splitComma_hdrChars]
  dsimp only
  rw [strip_eqPart 'x' x (by decide), pyStrip_cons_space,
    strip_eqPart 'y' y (by decide), splitEq_part 'x' x (by decide),
    splitEq_part 'y' y (by decide)]
  dsimp only
  rw [pyInt_cons_space, pyInt_cons_space, pyInt_pyStr, pyInt_pyStr]

theorem hdrChars_getLast? (x y : ℤ) :
    ∃ d, (hdrChars x y).getLast? = some d ∧ isDigitCh d := by
  obtain ⟨d, hd, hdig⟩ := pyStr_getLast? y
  refine ⟨d, ?_, hdig⟩
  show (((['x', ' ', '=', ' '] ++ pyStr x) ++ [',', ' ', 'y', ' ', '=', ' ']) ++
    pyStr y).getLast? = some d
  exact getLast?_append_right hd

theorem pyStrip_hdrChars (x y : ℤ) : pyStrip (hdrChars x y) = hdrChars x y := by
  obtain ⟨d, hd, hdig⟩ := hdrChars_getLast? x y
  apply pyStrip_id_edges
  · intro c hc
    have h2 : (hdrChars x y).head? = some 'x' := rfl
    rw [h2] at hc
    have : 'x' = c := by injection hc
    rw [← this]
    decide
  · intro c hc
    rw [hd] at hc
    have : d = c := by injection hc
    rw [← this]
    exact isDigitCh_not_space hdig

theorem phase1_cons_eq (c : Char) (cs : List Char) (ls : List (List Char)) (acc : List Char)
    (hdr : Option (ℤ × ℤ)) :
    phase1 ((c :: cs) :: ls) acc hdr =
      if c = '#' then phase1 ls acc hdr
      else if c = 'x' then
        match parseHeaderLine (c :: cs) with
        | .error e => .error e
        | .ok h =>
          if (c :: cs).getLast (List.cons_ne_nil c cs) = '!' then .ok (acc.dropLast, some h)
          else phase1 ls acc (some h)
      else
        if (c :: cs).getLast (List.cons_ne_nil c cs) = '!' then .ok ((acc ++ c :: cs).dropLast, hdr)
        else phase1 ls (acc ++ c :: cs) hdr := by
  conv_lhs => rw [phase1.eq_def]

theorem phase1_header (x y : ℤ) (ls : List (List Char)) (acc : List Char)
    (hdr : Option (ℤ × ℤ)) :
    phase1 (hdrChars x y :: ls) acc hdr = phase1 ls acc (some (x, y)) := by
  obtain ⟨d, hd, hdig⟩ := hdrChars_getLast? x y
  have hform : hdrChars x y =
      'x' :: ((([' ', '=', ' '] ++ pyStr x) ++ [',', ' ', 'y', ' ', '=', ' ']) ++ pyStr y) := rfl
  set tail := (([' ', '=', ' '] ++ pyStr x) ++ [',', ' ', 'y', ' ', '=', ' ']) ++ pyStr y with htail
  have hparse : parseHeaderLine ('x' :: tail) = .ok (x, y) := by
    rw [← hform]
    exact parseHeaderLine_hdrChars x y
  have hlast2 : ('x' :: tail).getLast (List.cons_ne_nil 'x' tail) ≠ '!' := by
    have h3 : ('x' :: tail).getLast? = some d := by
      rw [← hform]
      exact hd
    rw [getLast_eq_of_getLast? h3]
    intro hEq
    subst hEq
    exact absurd hdig (by decide)
  rw [hform, phase1_cons_eq, if_neg (by decide), if_pos rfl, hparse]
  dsimp only
  rw [if_neg hlast2]

theorem phase1_y_cases (ls : List (List Char)) : ∀ (acc : List Char) (x y1 y2 : ℤ),
    phase1 ls acc (some (x, y1)) = phase1 ls acc (some (x, y2)) ∨
    (∃ r, phase1 ls acc (some (x, y1)) = .ok (r, some (x, y1)) ∧
      phase1 ls acc (some (x, y2)) = .ok (r, some (x, y2))) := by
  induction ls with
  | nil =>
    intro acc x y1 y2
    exact Or.inr ⟨acc, rfl, rfl⟩
  | cons l ls ih =>
    intro acc x y1 y2
    match l with
    | [] => exact Or.inl rfl
    | c :: cs =>
      rw [phase1_cons_eq, phase1_cons_eq]
      by_cases hc : c = '#'
      · rw [if_pos hc, if_pos hc]
        exact ih acc x y1 y2
      · rw [if_neg hc, if_neg hc]
        by_cases hx : c = 'x'
        · rw [if_pos hx, if_pos hx]
          cases hparse : parseHeaderLine (c :: cs) with
          | error e => exact Or.inl rfl
          | ok h => exact Or.inl rfl
        · rw [if_neg hx, if_neg hx]
          by_cases hbang : (c :: cs).getLast (List.cons_ne_nil c cs) = '!'
          · rw [if_pos hbang, if_pos hbang]
            exact Or.inr ⟨(acc ++ c :: cs).dropLast, rfl, rfl⟩
          · rw [if_neg hbang, if_neg hbang]
            exact ih (acc ++ c :: cs) x y1 y2

theorem parseRLE_cons_strip (l : List Char) (hl : pyStrip l = l) (rest : List (List Char)) :
    parseRLE (l :: rest) =
      match phase1 (l :: rest.map pyStrip) [] none with
      | .error e => .error e
      | .ok (rle, hdr) =>
        match hdr with
        | none => .error "NameError"
        | some (xv, _yv) =>
          let grid := (splitOnChar '$' rle).map (decodeChunk xv)
          if grid.all (fun row => row.length = (grid.headD []).length) then .ok grid
          else .error "ValueError" := by
  unfold parseRLE
  rw [List.map_cons, hl]

/-- C4 counterexample: the header declares x = 3, y = 2 but the body is a
single row of five live cells; decode returns the 1×5 grid [[1,1,1,1,1]]
silently instead of failing with a decode error. -/
theorem parseRLE_dimension_mismatch_cex :
    parseRLE [['x', ' ', '=', ' ', '3', ',', ' ', 'y', ' ', '=', ' ', '2'],
      ['o', 'o', 'o', 'o', 'o', '!']] = .ok [[1, 1, 1, 1, 1]] := by
  rfl

/-- C4 amended: decode performs no dimension validation at all.  The declared
height never influences the result (parseRLE is invariant under changing the
y header field), and a decoded row is padded with dead cells up to the
declared width when short but kept at its full length when longer — the row
length is always max(width, decoded length), never an error and never a
truncation. -/
theorem parseRLE_no_dimension_check (x y1 y2 : ℤ) (rest : List (List Char)) (chunk : List Char) :
    parseRLE (hdrChars x y1 :: rest) = parseRLE (hdrChars x y2 :: rest) ∧
    (decodeChunk x chunk).length = max x.toNat (expandChunk chunk).length := by
  constructor
  · rw [parseRLE_cons_strip _ (pyStrip_hdrChars x y1),
      parseRLE_cons_strip _ (pyStrip_hdrChars x y2),
      phase1_header, phase1_header]
    rcases phase1_y_cases (rest.map pyStrip) [] x y1 y2 with h | ⟨r, h1, h2⟩
    · rw [h]
    · rw [h1, h2]
  · unfold decodeChunk
    by_cases h : ((expandChunk chunk).length : ℤ) ≠ x
    · rw [if_pos h]
      simp only [List.length_append, List.length_replicate]
      omega
    · rw [if_neg h]
      omega

/-- Witness for C4 (amended) at width 3, heights 2 and 7, and the chunk 5o. -/
theorem parseRLE_no_dimension_check_witness :
    parseRLE (hdrChars 3 2 :: [['o', 'o', 'o', 'o', 'o', '!']]) =
      parseRLE (hdrChars 3 7 :: [['o', 'o', 'o', 'o', 'o', '!']]) ∧
    (decodeChunk 3 ['5', 'o']).length = max (3 : ℤ).toNat (expandChunk ['5', 'o']).length :=
  parseRLE_no_dimension_check 3 2 7 [['o', 'o', 'o', 'o', 'o', '!']] ['5', 'o']

/-! ## Helper lemmas: line wrapping -/

theorem renderAll_append (a b : List (Char × ℕ)) :
    renderAll (a ++ b) = renderAll a ++ renderAll b := by
  simp [renderAll]

theorem renderAll_singleton (gp : Char × ℕ) : renderAll [gp] = renderToken gp := by
  simp [renderAll]

theorem wrapGroups_bound (gs : List (Char × ℕ)) :
    ∀ (cur : List Char), (∀ gp ∈ gs, (renderToken gp).length ≤ 70) → cur.length ≤ 70 →
      ∀ line ∈ wrapGroups gs cur, line.length ≤ 70 := by
  induction gs with
  | nil =>
    intro cur _ hcur line hline
    simp only [wrapGroups, List.mem_singleton] at hline
    rw [hline]
    exact hcur
  | cons gp rest ih =>
    intro cur htok hcur line hline
    have htokgp : (renderToken gp).length ≤ 70 := htok gp (List.mem_cons_self ..)
    have htokrest : ∀ gp2 ∈ rest, (renderToken gp2).length ≤ 70 :=
      fun gp2 h2 => htok gp2 (List.mem_cons_of_mem _ h2)
    match rest, ih with
    | [], _ =>
      simp only [wrapGroups] at hline
      split at hline
      · rcases List.mem_cons.mp hline with h | h
        · rw [h]
          exact hcur
        · rw [List.mem_singleton.mp h]
          exact htokgp
      · rw [List.mem_singleton.mp hline]
        rename_i hfit
        simp only [List.length_append]
        omega
    | [gp2], ih =>
      simp only [wrapGroups] at hline ⊢
      split at hline
      · exact ih cur (by simpa using htokrest) hcur line hline
      · split at hline
        · rcases List.mem_cons.mp hline with h | h
          · rw [h]
            exact hcur
          · exact ih _ (by simpa using htokrest) htokgp line h
        · rename_i hfit
          exact ih _ (by simpa using htokrest) (by simp only [List.length_append]; omega)
            line hline
    | gp2 :: gp3 :: rest2, ih =>
      simp only [wrapGroups] at hline ⊢
      split at hline
      · rcases List.mem_cons.mp hline with h | h
        · rw [h]
          exact hcur
        · exact ih _ htokrest htokgp line h
      · rename_i hfit
        exact ih _ htokrest (by simp only [List.length_append]; omega) line hline

theorem wrapGroups_singleton_eq (gp : Char × ℕ) (cur : List Char) :
    wrapGroups [gp] cur =
      if 70 < cur.length + (renderToken gp).length then [cur, renderToken gp]
      else [cur ++ renderToken gp] := by
  conv_lhs => rw [wrapGroups.eq_def]

theorem wrapGroups_partition (gs : List (Char × ℕ)) :
    ∀ ts0 : List (Char × ℕ),
      ∃ pieces : List (List (Char × ℕ)),
        pieces.flatten = ts0 ++ elideGroups gs ∧
        wrapGroups gs (renderAll ts0) = pieces.map renderAll ∧
        ((∀ gp ∈ gs, (renderToken gp).length ≤ 70) → gs ≠ [] →
          ∀ p ∈ pieces, p ≠ []) := by
  induction gs with
  | nil =>
    intro ts0
    exact ⟨[ts0], by simp [elideGroups], by simp [wrapGroups],
      fun _ hne => absurd rfl hne⟩
  | cons gp rest ih =>
    intro ts0
    match rest, ih with
    | [], _ =>
      by_cases hfit : 70 < (renderAll ts0).length + (renderToken gp).length
      · refine ⟨[ts0, [gp]], by simp [elideGroups], ?_, ?_⟩
        · rw [wrapGroups_singleton_eq, if_pos hfit]
          simp [renderAll_singleton]
        · intro htok _ p hp
          rcases List.mem_cons.mp hp with h | h
          · subst h
            intro h0
            subst h0
            have h1 := htok gp (List.mem_cons_self ..)
            have h2 : (renderAll ([] : List (Char × ℕ))).length = 0 := rfl
            omega
          · rw [List.mem_singleton.mp h]
            simp
      · refine ⟨[ts0 ++ [gp]], by simp [elideGroups], ?_, ?_⟩
        · rw [wrapGroups_singleton_eq, if_neg hfit]
          simp [renderAll_append, renderAll_singleton]
        · intro _ _ p hp
          rw [List.mem_singleton.mp hp]
          simp
    | [gp2], ih =>
      by_cases hb : gp.1 = 'b'
      · obtain ⟨pieces, hflat, hwrap, hpne⟩ := ih ts0
        refine ⟨pieces, ?_, ?_, ?_⟩
        · rw [hflat]
          simp [elideGroups, hb]
        · conv_lhs => rw [wrapGroups.eq_def]
          dsimp only
          rw [if_pos hb]
          exact hwrap
        · intro htok _
          exact hpne (fun q hq => htok q (List.mem_cons_of_mem _ hq)) (by simp)
      · by_cases hfit : 70 < (renderAll ts0).length + (renderToken gp).length
        · obtain ⟨pieces, hflat, hwrap, hpne⟩ := ih [gp]
          refine ⟨ts0 :: pieces, ?_, ?_, ?_⟩
          · rw [List.flatten_cons, hflat]
            simp [elideGroups, hb]
          · conv_lhs => rw [wrapGroups.eq_def]
            dsimp only
            rw [if_neg hb, if_pos hfit, List.map_cons, ← hwrap, renderAll_singleton]
          · intro htok _ p hp
            rcases List.mem_cons.mp hp with h | h
            · subst h
              intro h0
              subst h0
              have h1 := htok gp (List.mem_cons_self ..)
              have h2 : (renderAll ([] : List (Char × ℕ))).length = 0 := rfl
              omega
            · exact hpne (fun q hq => htok q (List.mem_cons_of_mem _ hq)) (by simp) p h
        · obtain ⟨pieces, hflat, hwrap, hpne⟩ := ih (ts0 ++ [gp])
          refine ⟨pieces, ?_, ?_, ?_⟩
          · rw [hflat]
            simp [elideGroups, hb]
          · conv_lhs => rw [wrapGroups.eq_def]
            dsimp only
            rw [if_neg hb, if_neg hfit, ← renderAll_singleton, ← renderAll_append]
            exact hwrap
          · intro htok _
            exact hpne (fun q hq => htok q (List.mem_cons_of_mem _ hq)) (by simp)
    | gp2 :: gp3 :: rest2, ih =>
      by_cases hfit : 70 < (renderAll ts0).length + (renderToken gp).length
      · obtain ⟨pieces, hflat, hwrap, hpne⟩ := ih [gp]
        refine ⟨ts0 :: pieces, ?_, ?_, ?_⟩
        · rw [List.flatten_cons, hflat]
          simp [elideGroups]
        · conv_lhs => rw [wrapGroups.eq_def]
          dsimp only
          rw [if_pos hfit, List.map_cons, ← hwrap, renderAll_singleton]
        · intro htok _ p hp
          rcases List.mem_cons.mp hp with h | h
          · subst h
            intro h0
            subst h0
            have h1 := htok gp (List.mem_cons_self ..)
            have h2 : (renderAll ([] : List (Char × ℕ))).length = 0 := rfl
            omega
          · exact hpne (fun q hq => htok q (List.mem_cons_of_mem _ hq)) (by simp) p h
      · obtain ⟨pieces, hflat, hwrap, hpne⟩ := ih (ts0 ++ [gp])
        refine ⟨pieces, ?_, ?_, ?_⟩
        · rw [hflat]
          simp [elideGroups]
        · conv_lhs => rw [wrapGroups.eq_def]
          dsimp only
          rw [if_neg hfit, ← renderAll_singleton, ← renderAll_append]
          exact hwrap
        · intro htok _
          exact hpne (fun q hq => htok q (List.mem_cons_of_mem _ hq)) (by simp)

theorem rleGroups_mem (l : List Char) :
    ∀ gp ∈ rleGroups l, gp.1 ∈ l ∧ 1 ≤ gp.2 ∧ gp.2 ≤ l.length := by
  induction l with
  | nil =>
    intro gp hgp
    simp [rleGroups] at hgp
  | cons c cs ih =>
    intro gp hgp
    conv at hgp => rw [rleGroups.eq_def]
    dsimp only at hgp
    cases h : rleGroups cs with
    | nil =>
      rw [h] at hgp
      dsimp only at hgp
      rw [List.mem_singleton] at hgp
      rw [hgp]
      exact ⟨List.mem_cons_self .., le_refl _, by simp⟩
    | cons dn rest =>
      rw [h] at hgp
      dsimp only at hgp
      split at hgp
      · rcases List.mem_cons.mp hgp with h2 | h2
        · obtain ⟨hmem, hge, hle⟩ := ih dn (h ▸ List.mem_cons_self ..)
          rw [h2]
          exact ⟨List.mem_cons_self .., by omega, by simp; omega⟩
        · obtain ⟨hmem, hge, hle⟩ := ih gp (h ▸ List.mem_cons_of_mem _ h2)
          exact ⟨List.mem_cons_of_mem _ hmem, hge, by simp; omega⟩
      · rcases List.mem_cons.mp hgp with h2 | h2
        · rw [h2]
          exact ⟨List.mem_cons_self .., le_refl _, by simp⟩
        · obtain ⟨hmem, hge, hle⟩ := ih gp (h ▸ h2)
          exact ⟨List.mem_cons_of_mem _ hmem, hge, by simp; omega⟩

theorem renderToken_length_le (gp : Char × ℕ) (h1 : 1 ≤ gp.2) (h2 : gp.2 < 10 ^ 69) :
    (renderToken gp).length ≤ 70 := by
  unfold renderToken
  by_cases hone : gp.2 = 1
  · rw [if_pos hone]
    simp
  · rw [if_neg hone]
    simp only [List.length_append, List.length_cons, List.length_nil]
    have hd : (pyStr (gp.2 : ℤ)).length ≤ 69 := by
      rw [pyStr_nonneg _ (by omega)]
      unfold natDigits
      rw [if_neg (by omega : ¬ ((gp.2 : ℤ).toNat = 0))]
      simp only [List.length_reverse, List.length_map]
      rw [Nat.digits_len 10 _ (by norm_num) (by omega)]
      have hlog : Nat.log 10 (gp.2 : ℤ).toNat < 69 :=
        Nat.log_lt_of_lt_pow (by omega) (by omega)
      omega
    omega

theorem intRange_length (a b : ℤ) : (intRange a b).length = (b - a).toNat := by
  unfold intRange
  rw [List.length_map, List.length_range]

theorem rowChars_length (g : Grid) (row : ℕ) (mn mx : ℤ) :
    (rowChars g row mn mx).length = (mx + 1 - mn).toNat := by
  unfold rowChars
  rw [List.length_map, intRange_length]

theorem encodeGrid_token_bound (g : Grid) (t b : ℕ) (mn mx : ℤ)
    (hW : (mx + 1 - mn).toNat < 10 ^ 69) :
    ∀ gp ∈ encodeGrid g t b mn mx, (renderToken gp).length ≤ 70 := by
  intro gp hgp
  unfold encodeGrid at hgp
  rw [List.mem_flatMap] at hgp
  obtain ⟨row, _, hmem⟩ := hgp
  rcases List.mem_append.mp hmem with h | h
  · obtain ⟨h1, h2, h3⟩ := rleGroups_mem _ gp h
    rw [rowChars_length] at h3
    exact renderToken_length_le gp h2 (by omega)
  · rw [List.mem_singleton] at h
    rw [h]
    simp [renderToken]

/-- C6 amended: for every well-formed grid with a live cell and its (true)
bounding box, provided the box width stays below 10^69 (so that every
count-plus-tag token fits on a line by itself; wider boxes can produce a
token longer than 70 characters, which the writer necessarily overflows),
every line the writer produces has length at most 70 and the lines partition
the (elided) token sequence — no token is split across two lines. -/
theorem writeRLE_line_wrap (g : Grid) (hwf : WFGrid g) (hlive : hasLive g = true)
    (hW : ((specMaxCol g : ℤ) + 1 - (specMinCol g : ℤ)).toNat < 10 ^ 69) :
    (∀ line ∈ wrapGroups
        (encodeGrid g (specTop g) (specBot g) (specMinCol g) (specMaxCol g)) [],
      line.length ≤ 70) ∧
    (∃ pieces : List (List (Char × ℕ)),
      pieces.flatten =
        elideGroups (encodeGrid g (specTop g) (specBot g) (specMinCol g) (specMaxCol g)) ∧
      wrapGroups (encodeGrid g (specTop g) (specBot g) (specMinCol g) (specMaxCol g)) [] =
        pieces.map renderAll) := by
  have htok := encodeGrid_token_bound g (specTop g) (specBot g) (specMinCol g) (specMaxCol g) hW
  refine ⟨wrapGroups_bound _ [] htok (by simp), ?_⟩
  obtain ⟨pieces, hflat, hwrap, _⟩ :=
    wrapGroups_partition (encodeGrid g (specTop g) (specBot g) (specMinCol g) (specMaxCol g)) []
  exact ⟨pieces, by simpa using hflat, by simpa [renderAll] using hwrap⟩

/-- Witness for C6 (amended) at the 1×1 live grid. -/
theorem writeRLE_line_wrap_witness :
    (∀ line ∈ wrapGroups
        (encodeGrid [[1]] (specTop [[1]]) (specBot [[1]]) (specMinCol [[1]]) (specMaxCol [[1]]))
        [],
      line.length ≤ 70) ∧
    (∃ pieces : List (List (Char × ℕ)),
      pieces.flatten =
        elideGroups
          (encodeGrid [[1]] (specTop [[1]]) (specBot [[1]]) (specMinCol [[1]])
            (specMaxCol [[1]])) ∧
      wrapGroups
          (encodeGrid [[1]] (specTop [[1]]) (specBot [[1]]) (specMinCol [[1]])
            (specMaxCol [[1]])) [] =
        pieces.map renderAll) :=
  writeRLE_line_wrap [[1]] (by decide) (by decide) (by decide)

/-! ## Helper lemmas: the 70-column overflow instance -/

theorem getD_replicate_one (n i : ℕ) (h : i < n) : (List.replicate n (1:ℕ)).getD i 0 = 1 := by
  rw [List.getD_eq_getElem?_getD, List.getElem?_replicate_of_lt h]
  rfl

theorem cellN_allLive (N i : ℕ) (h : i < N) : cellN [List.replicate N 1] 0 i = 1 := by
  unfold cellN
  rw [List.getD_cons_zero, getD_replicate_one N i h]

theorem rowChars_allLive (N : ℕ) (hN : 0 < N) :
    rowChars [List.replicate N 1] 0 0 ((N : ℤ) - 1) = List.replicate N 'o' := by
  unfold rowChars intRange
  have hrange : ((N : ℤ) - 1 + 1 - 0).toNat = N := by omega
  rw [hrange, List.map_map]
  have hcong : ∀ i ∈ List.range N,
      ((fun c => if cellZ [List.replicate N 1] 0 c = 1 then 'o' else 'b') ∘
        (fun i => 0 + Int.ofNat i)) i = (fun _ => 'o') i := by
    intro i hi
    rw [List.mem_range] at hi
    simp only [Function.comp_apply, zero_add]
    have : cellZ [List.replicate N 1] 0 (Int.ofNat i) = 1 := by
      unfold cellZ
      rw [if_pos (show (0:ℤ) ≤ Int.ofNat i from Int.ofNat_nonneg i)]
      exact cellN_allLive N i hi
    rw [this]
    simp
  rw [List.map_congr_left hcong, List.map_const', List.length_range]

theorem rleGroups_replicate (c : Char) : ∀ n, rleGroups (List.replicate (n + 1) c) = [(c, n + 1)] := by
  intro n
  induction n with
  | zero => rfl
  | succ m ih =>
    rw [List.replicate_succ]
    conv_lhs => rw [rleGroups.eq_def]
    dsimp only
    rw [ih]
    dsimp only
    rw [if_pos rfl]

theorem encodeGrid_single (g : Grid) (mn mx : ℤ) :
    encodeGrid g 0 0 mn mx = rleGroups (rowChars g 0 mn mx) ++ [('!', 1)] := by
  unfold encodeGrid
  have h1 : List.range' 0 (0 + 1 - 0) = [0] := rfl
  rw [h1]
  simp

theorem pow70_cast : ((10 ^ 70 : ℕ) : ℤ) = (10:ℤ) ^ 70 := by
  push_cast

theorem pyStr_pow70_length : (pyStr (((10:ℕ) ^ 70 : ℕ) : ℤ)).length = 71 := by
  rw [pyStr_nonneg _ (by positivity)]
  rw [Int.toNat_natCast]
  unfold natDigits
  rw [if_neg (by positivity)]
  rw [List.length_reverse, List.length_map]
  rw [Nat.digits_len 10 _ (by norm_num) (by positivity)]
  have hlog : Nat.log 10 ((10:ℕ) ^ 70) = 70 := Nat.log_pow (by norm_num) 70
  omega

/-- C6 counterexample: a single row of 10^70 live cells (with its true
bounding box) encodes to the single token 10^70 followed by the tag o —
72 characters — which cannot fit on any line: the writer emits it on a line
of length 72, violating the 70-character bound as stated. -/
theorem writeRLE_line_overflow_cex :
    WFGrid [List.replicate (10 ^ 70) 1] ∧
    hasLive [List.replicate (10 ^ 70) 1] = true ∧
    specTop [List.replicate (10 ^ 70) 1] = 0 ∧
    specBot [List.replicate (10 ^ 70) 1] = 0 ∧
    specMinCol [List.replicate (10 ^ 70) 1] = 0 ∧
    specMaxCol [List.replicate (10 ^ 70) 1] = 10 ^ 70 - 1 ∧
    ∃ line ∈ wrapGroups
        (encodeGrid [List.replicate (10 ^ 70) 1] 0 0 0 (((10 ^ 70 : ℕ) : ℤ) - 1)) [],
      70 < line.length := by
  have hN : 0 < (10:ℕ) ^ 70 := by positivity
  have h70 : (10:ℕ) ^ 70 = (10 ^ 70 - 1) + 1 := by omega
  have hrowlive : rowLive [List.replicate ((10:ℕ) ^ 70) 1] 0 = true := by
    unfold rowLive rowOf
    rw [List.getD_cons_zero, List.any_eq_true]
    exact ⟨1, List.mem_replicate.mpr ⟨by omega, rfl⟩, by decide⟩
  have hcollive : ∀ c, c < 10 ^ 70 → colLive [List.replicate ((10:ℕ) ^ 70) 1] c = true := by
    intro c hc
    unfold colLive
    rw [show ([List.replicate ((10:ℕ) ^ 70) 1] : Grid).length = 1 from rfl,
      show List.range 1 = [0] from rfl, List.any_cons]
    have hx : cellN [List.replicate ((10:ℕ) ^ 70) 1] 0 c = 1 := cellN_allLive _ c hc
    rw [hx]
    rfl
  have hcols : numCols [List.replicate ((10:ℕ) ^ 70) 1] = 10 ^ 70 := by
    unfold numCols
    rw [show ([List.replicate ((10:ℕ) ^ 70) 1] : Grid).headD [] = List.replicate (10 ^ 70) 1
      from rfl, List.length_replicate]
  have hrange_cons : List.range ((10:ℕ) ^ 70) =
      0 :: (List.range ((10:ℕ) ^ 70 - 1)).map Nat.succ := by
    conv_lhs => rw [h70]
    rw [List.range_succ_eq_map]
  have hrange_rev : (List.range ((10:ℕ) ^ 70)).reverse =
      ((10:ℕ) ^ 70 - 1) :: (List.range ((10:ℕ) ^ 70 - 1)).reverse := by
    conv_lhs => rw [h70, List.range_succ]
    rw [List.reverse_append, List.reverse_singleton, List.singleton_append]
  have htokval : renderToken ('o', (10:ℕ) ^ 70) = pyStr (((10:ℕ) ^ 70 : ℕ) : ℤ) ++ ['o'] := by
    unfold renderToken
    rw [if_neg (by norm_num)]
  have htoklen : (renderToken ('o', (10:ℕ) ^ 70)).length = 72 := by
    rw [htokval, List.length_append, pyStr_pow70_length]
    rfl
  have henc : encodeGrid [List.replicate ((10:ℕ) ^ 70) 1] 0 0 0 (((10 ^ 70 : ℕ) : ℤ) - 1) =
      [('o', 10 ^ 70), ('!', 1)] := by
    rw [encodeGrid_single, rowChars_allLive _ hN]
    conv_lhs => rw [h70]
    rw [rleGroups_replicate]
    rw [← h70]
    rfl
  have hwrap : wrapGroups [('o', (10:ℕ) ^ 70), ('!', 1)] [] =
      [[], renderToken ('o', (10:ℕ) ^ 70), ['!']] := by
    conv_lhs => rw [wrapGroups.eq_def]
    dsimp only
    rw [if_neg (by decide : ¬ ('o' = 'b'))]
    rw [if_pos (by rw [htoklen]; norm_num)]
    rw [wrapGroups_singleton_eq]
    rw [if_pos (by rw [htoklen, show (renderToken ('!', 1)).length = 1 from rfl]; norm_num)]
    rfl
  refine ⟨⟨?_, ?_⟩, ?_, ?_, ?_, ?_, ?_, ?_⟩
  · intro row hrow
    rw [List.mem_singleton] at hrow
    subst hrow
    rfl
  · intro row hrow v hv
    rw [List.mem_singleton] at hrow
    subst hrow
    exact Or.inr (List.eq_of_mem_replicate hv)
  · unfold hasLive
    rw [show ([List.replicate ((10:ℕ) ^ 70) 1] : Grid).length = 1 from rfl,
      show List.range 1 = [0] from rfl, List.any_cons, hrowlive]
    rfl
  · unfold specTop
    rw [show ([List.replicate ((10:ℕ) ^ 70) 1] : Grid).length = 1 from rfl,
      show List.range 1 = [0] from rfl, List.find?_cons_of_pos _ hrowlive]
    rfl
  · unfold specBot
    rw [show ([List.replicate ((10:ℕ) ^ 70) 1] : Grid).length = 1 from rfl,
      show List.range 1 = [0] from rfl, show ([0] : List ℕ).reverse = [0] from rfl,
      List.find?_cons_of_pos _ hrowlive]
    rfl
  · unfold specMinCol
    rw [hcols, hrange_cons, List.find?_cons_of_pos _ (hcollive 0 hN)]
    rfl
  · unfold specMaxCol
    rw [hcols, hrange_rev, List.find?_cons_of_pos _ (hcollive _ (by omega))]
    rfl
  · refine ⟨renderToken ('o', (10:ℕ) ^ 70), ?_, ?_⟩
    · rw [henc, hwrap]
      exact List.mem_cons_of_mem _ (List.mem_cons_self ..)
    · rw [htoklen]
      norm_num

/-! ## Helper lemmas: the spec bounding box on live grids -/

theorem find?_prefix_false {α : Type} {p : α → Bool} :
    ∀ (l : List α) {x : α}, l.find? p = some x →
      ∃ as bs, l = as ++ x :: bs ∧ ∀ a ∈ as, p a = false := by
  intro l
  induction l with
  | nil =>
    intro x h
    simp [List.find?] at h
  | cons a t ih =>
    intro x h
    by_cases hpa : p a = true
    · rw [List.find?_cons_of_pos _ hpa] at h
      injection h with h2
      exact ⟨[], t, by rw [← h2]; rfl, by simp⟩
    · rw [List.find?_cons_of_neg _ hpa] at h
      obtain ⟨as, bs, heq, hall⟩ := ih h
      refine ⟨a :: as, bs, by rw [List.cons_append, heq], ?_⟩
      intro b hb
      rcases List.mem_cons.mp hb with h1 | h1
      · rw [h1]
        simpa using hpa
      · exact hall b h1

theorem range_find?_spec {n m : ℕ} {p : ℕ → Bool} (h : (List.range n).find? p = some m) :
    p m = true ∧ m < n ∧ ∀ k < m, p k = false := by
  have hpm := List.find?_some h
  have hmn := List.mem_range.mp (List.mem_of_find?_eq_some h)
  obtain ⟨as, bs, heq, hall⟩ := find?_prefix_false _ h
  have hL : as.length < n := by
    have hlen := congrArg List.length heq
    simp only [List.length_range, List.length_append, List.length_cons] at hlen
    omega
  have hm : m = as.length := by
    have hdrop : (List.range n).drop as.length = m :: bs := by
      rw [heq]
      exact List.drop_left _ _
    have h1 : (List.range n)[as.length]? = some m := by
      rw [← List.head?_drop, hdrop]
      rfl
    rw [List.getElem?_range hL] at h1
    injection h1 with h2
    omega
  have htake : as = List.range as.length := by
    have h1 : (List.range n).take as.length = as := by
      rw [heq]
      exact List.take_left _ _
    rw [List.take_range, min_eq_left (le_of_lt hL)] at h1
    exact h1.symm
  refine ⟨hpm, hmn, ?_⟩
  intro k hk
  have hkas : k ∈ as := by
    rw [htake]
    exact List.mem_range.mpr (by omega)
  exact hall k hkas

theorem range_rev_find?_spec {n m : ℕ} {p : ℕ → Bool}
    (h : (List.range n).reverse.find? p = some m) :
    p m = true ∧ m < n ∧ ∀ k, m < k → k < n → p k = false := by
  have hpm := List.find?_some h
  have hmn := List.mem_range.mp (List.mem_reverse.mp (List.mem_of_find?_eq_some h))
  obtain ⟨as, bs, heq, hall⟩ := find?_prefix_false _ h
  have heq2 : List.range n = (bs.reverse ++ [m]) ++ as.reverse := by
    have h1 := congrArg List.reverse heq
    rw [List.reverse_reverse, List.reverse_append, List.reverse_cons] at h1
    rw [h1, List.append_assoc]
  have hlen : bs.reverse.length + 1 + as.reverse.length = n := by
    have h1 := congrArg List.length heq2
    simp only [List.length_range, List.length_append, List.length_reverse,
      List.length_cons, List.length_nil] at h1 ⊢
    omega
  have hm : m = bs.reverse.length := by
    have hdrop : (List.range n).drop bs.reverse.length = m :: as.reverse := by
      rw [heq2, List.append_assoc]
      rw [List.drop_left bs.reverse ([m] ++ as.reverse)]
      rfl
    have h1 : (List.range n)[bs.reverse.length]? = some m := by
      rw [← List.head?_drop, hdrop]
      rfl
    rw [List.getElem?_range (by omega)] at h1
    injection h1 with h2
    omega
  refine ⟨hpm, hmn, ?_⟩
  intro k hmk hkn
  have hdrop2 : (List.range n).drop (m + 1) = as.reverse := by
    have h1 : (bs.reverse ++ [m]).length = m + 1 := by
      simp only [List.length_append, List.length_cons, List.length_nil]
      omega
    rw [heq2, ← h1]
    exact List.drop_left _ _
  have h1 : ((List.range n).drop (m + 1))[k - (m + 1)]? = some k := by
    rw [List.getElem?_drop]
    have h2 : m + 1 + (k - (m + 1)) = k := by omega
    rw [h2, List.getElem?_range hkn]
  rw [hdrop2] at h1
  obtain ⟨hlt, h3⟩ := List.getElem?_eq_some.mp h1
  have hkmem : k ∈ as.reverse := h3 ▸ List.getElem_mem hlt
  exact hall k (List.mem_reverse.mp hkmem)

theorem hasLive_find?_row (g : Grid) (h : hasLive g = true) :
    ∃ m, (List.range g.length).find? (rowLive g) = some m :=
  Option.isSome_iff_exists.mp (List.find?_isSome.mpr (List.any_eq_true.mp h))

theorem hasLive_find?_row_rev (g : Grid) (h : hasLive g = true) :
    ∃ m, (List.range g.length).reverse.find? (rowLive g) = some m := by
  obtain ⟨r, hr, hlive⟩ := List.any_eq_true.mp h
  exact Option.isSome_iff_exists.mp
    (List.find?_isSome.mpr ⟨r, List.mem_reverse.mpr hr, hlive⟩)

theorem specTop_spec (g : Grid) (h : hasLive g = true) :
    rowLive g (specTop g) = true ∧ specTop g < g.length ∧
      ∀ k < specTop g, rowLive g k = false := by
  obtain ⟨m, hm⟩ := hasLive_find?_row g h
  have hst : specTop g = m := by
    unfold specTop
    rw [hm]
    rfl
  rw [hst]
  exact range_find?_spec hm

theorem specBot_spec (g : Grid) (h : hasLive g = true) :
    rowLive g (specBot g) = true ∧ specBot g < g.length ∧
      ∀ k, specBot g < k → k < g.length → rowLive g k = false := by
  obtain ⟨m, hm⟩ := hasLive_find?_row_rev g h
  have hst : specBot g = m := by
    unfold specBot
    rw [hm]
    rfl
  rw [hst]
  exact range_rev_find?_spec hm

theorem specTop_le_specBot (g : Grid) (h : hasLive g = true) :
    specTop g ≤ specBot g := by
  obtain ⟨ht1, ht2, ht3⟩ := specTop_spec g h
  obtain ⟨hb1, hb2, hb3⟩ := specBot_spec g h
  by_contra hlt
  rw [ht3 _ (by omega)] at hb1
  exact Bool.false_ne_true hb1

theorem colLive_lt_numCols {g : Grid} (hrect : Rectangular g) {c : ℕ}
    (h : colLive g c = true) : c < numCols g := by
  obtain ⟨r, hr, hc⟩ := List.any_eq_true.mp h
  have hc1 : cellN g r c = 1 := of_decide_eq_true hc
  by_contra hge
  have h0 := cellN_col_oob g hrect r c (by omega)
  omega

theorem colLive_exists (g : Grid) (hrect : Rectangular g) (h : hasLive g = true) :
    ∃ c ∈ List.range (numCols g), colLive g c = true := by
  obtain ⟨r, hr, hlive⟩ := List.any_eq_true.mp h
  obtain ⟨v, hv, hv1⟩ := List.any_eq_true.mp hlive
  have hv1' : v = 1 := of_decide_eq_true hv1
  have hrlen : r < g.length := List.mem_range.mp hr
  obtain ⟨c, hclt, hget⟩ := List.mem_iff_getElem.mp hv
  have hrow : rowOf g r ∈ g := getD_mem_of_lt g hrlen
  have hrowlen : (rowOf g r).length = numCols g := hrect _ hrow
  have hcell : cellN g r c = 1 := by
    unfold rowOf at hclt hget
    show (g.getD r []).getD c 0 = 1
    rw [List.getD_eq_getElem?_getD, List.getElem?_eq_getElem hclt]
    rw [hget, hv1']
    rfl
  refine ⟨c, List.mem_range.mpr (by omega), ?_⟩
  unfold colLive
  rw [List.any_eq_true]
  exact ⟨r, hr, by rw [hcell]; rfl⟩

theorem specMinCol_spec (g : Grid) (hrect : Rectangular g) (h : hasLive g = true) :
    colLive g (specMinCol g) = true ∧ specMinCol g < numCols g ∧
      ∀ k < specMinCol g, colLive g k = false := by
  obtain ⟨m, hm⟩ := Option.isSome_iff_exists.mp
    (List.find?_isSome.mpr (colLive_exists g hrect h))
  have hst : specMinCol g = m := by
    unfold specMinCol
    rw [hm]
    rfl
  rw [hst]
  exact range_find?_spec hm

theorem specMaxCol_spec (g : Grid) (hrect : Rectangular g) (h : hasLive g = true) :
    colLive g (specMaxCol g) = true ∧ specMaxCol g < numCols g ∧
      ∀ k, specMaxCol g < k → k < numCols g → colLive g k = false := by
  obtain ⟨c, hc, hlive⟩ := colLive_exists g hrect h
  obtain ⟨m, hm⟩ := Option.isSome_iff_exists.mp
    (List.find?_isSome.mpr ⟨c, List.mem_reverse.mpr hc, hlive⟩)
  have hst : specMaxCol g = m := by
    unfold specMaxCol
    rw [hm]
    rfl
  rw [hst]
  exact range_rev_find?_spec hm

theorem specMinCol_le_specMaxCol (g : Grid) (hrect : Rectangular g) (h : hasLive g = true) :
    specMinCol g ≤ specMaxCol g := by
  obtain ⟨hn1, hn2, hn3⟩ := specMinCol_spec g hrect h
  obtain ⟨hx1, hx2, hx3⟩ := specMaxCol_spec g hrect h
  by_contra hlt
  rw [hn3 _ (by omega)] at hx1
  exact Bool.false_ne_true hx1

/-! ## Helper lemmas: run-length groups and token text -/

theorem rleGroups_ne_nil (c : Char) (cs : List Char) : rleGroups (c :: cs) ≠ [] := by
  rw [rleGroups.eq_def]
  dsimp only
  cases h : rleGroups cs with
  | nil => simp
  | cons dn rest =>
    obtain ⟨d, n⟩ := dn
    dsimp only
    split
    · simp
    · simp

theorem unrle_append (a b : List (Char × ℕ)) : unrle (a ++ b) = unrle a ++ unrle b := by
  unfold unrle
  rw [List.flatMap_append]

theorem unrle_rleGroups : ∀ l : List Char, unrle (rleGroups l) = l := by
  intro l
  induction l with
  | nil => rfl
  | cons c cs ih =>
    rw [rleGroups.eq_def]
    dsimp only
    cases h : rleGroups cs with
    | nil =>
      rw [h] at ih
      dsimp only
      unfold unrle
      rw [List.flatMap_cons]
      dsimp only
      rw [List.replicate_one, List.singleton_append]
      unfold unrle at ih
      rw [List.flatMap_nil] at ih
      rw [← ih]
      rfl
    | cons dn rest =>
      obtain ⟨d, n⟩ := dn
      rw [h] at ih
      dsimp only
      by_cases hcd : c = d
      · rw [if_pos hcd]
        unfold unrle at ih ⊢
        rw [List.flatMap_cons] at ih ⊢
        dsimp only at ih ⊢
        rw [List.replicate_succ, hcd, List.cons_append, ih]
      · rw [if_neg hcd]
        unfold unrle at ih ⊢
        rw [List.flatMap_cons]
        dsimp only
        rw [List.replicate_one, List.singleton_append, ih]

theorem elideGroups_pair (gp last : Char × ℕ) :
    elideGroups [gp, last] = if gp.1 = 'b' then [last] else [gp, last] := rfl

theorem elideGroups_cons₃ (a b c : Char × ℕ) (rest : List (Char × ℕ)) :
    elideGroups (a :: b :: c :: rest) = a :: elideGroups (b :: c :: rest) := rfl

theorem elideGroups_concat :
    ∀ (X : List (Char × ℕ)) (gp last : Char × ℕ),
      elideGroups (X ++ [gp, last]) = X ++ (if gp.1 = 'b' then [last] else [gp, last]) := by
  intro X
  induction X with
  | nil =>
    intro gp last
    exact elideGroups_pair gp last
  | cons a X ih =>
    intro gp last
    cases X with
    | nil =>
      show elideGroups [a, gp, last] = _
      rw [elideGroups_cons₃, elideGroups_pair]
      rfl
    | cons b X' =>
      have ih2 := ih gp last
      simp only [List.cons_append] at ih2 ⊢
      cases hx : X' ++ [gp, last] with
      | nil => exact absurd hx (by simp)
      | cons c rest =>
        rw [elideGroups_cons₃, ← hx, ih2]

theorem elideGroups_subset : ∀ (gs : List (Char × ℕ)), ∀ gp ∈ elideGroups gs, gp ∈ gs
  | [] => by
    intro gp hgp
    exact hgp
  | [a] => by
    intro gp hgp
    exact hgp
  | [a, b] => by
    intro gp hgp
    rw [elideGroups_pair] at hgp
    split at hgp
    · exact List.mem_cons_of_mem _ hgp
    · exact hgp
  | a :: b :: c :: rest => by
    intro gp hgp
    rw [elideGroups_cons₃] at hgp
    rcases List.mem_cons.mp hgp with h | h
    · rw [h]
      exact List.mem_cons_self ..
    · exact List.mem_cons_of_mem _ (elideGroups_subset (b :: c :: rest) gp h)

theorem renderToken_ne_nil (gp : Char × ℕ) : renderToken gp ≠ [] := by
  unfold renderToken
  split
  · simp
  · simp

theorem renderToken_getLast? (gp : Char × ℕ) : (renderToken gp).getLast? = some gp.1 := by
  unfold renderToken
  split
  · rfl
  · exact List.getLast?_concat _

theorem renderToken_head? (gp : Char × ℕ) :
    ∃ ch, (renderToken gp).head? = some ch ∧ (isDigitCh ch ∨ ch = gp.1) := by
  unfold renderToken
  split
  · exact ⟨gp.1, rfl, Or.inr rfl⟩
  · have hne := pyStr_ne_nil ((gp.2 : ℤ))
    cases hp : pyStr ((gp.2 : ℤ)) with
    | nil => exact absurd hp hne
    | cons d ds =>
      refine ⟨d, rfl, Or.inl ?_⟩
      exact pyStr_digits _ (Int.natCast_nonneg _) d (by rw [hp]; exact List.mem_cons_self ..)

theorem renderToken_chars (gp : Char × ℕ) :
    ∀ ch ∈ renderToken gp, isDigitCh ch ∨ ch = gp.1 := by
  intro ch hch
  unfold renderToken at hch
  split at hch
  · rw [List.mem_singleton] at hch
    exact Or.inr hch
  · rcases List.mem_append.mp hch with h | h
    · exact Or.inl (pyStr_digits _ (Int.natCast_nonneg _) ch h)
    · rw [List.mem_singleton] at h
      exact Or.inr h

theorem renderAll_cons (gp : Char × ℕ) (rest : List (Char × ℕ)) :
    renderAll (gp :: rest) = renderToken gp ++ renderAll rest := by
  unfold renderAll
  rw [List.map_cons, List.flatten_cons]

theorem renderAll_ne_nil (ps : List (Char × ℕ)) (h : ps ≠ []) : renderAll ps ≠ [] := by
  cases ps with
  | nil => exact absurd rfl h
  | cons gp rest =>
    rw [renderAll_cons]
    intro hz
    exact renderToken_ne_nil gp (List.append_eq_nil.mp hz).1

theorem renderAll_head? (gp : Char × ℕ) (rest : List (Char × ℕ)) :
    (renderAll (gp :: rest)).head? = (renderToken gp).head? := by
  rw [renderAll_cons]
  cases htok : renderToken gp with
  | nil => exact absurd htok (renderToken_ne_nil gp)
  | cons d ds => rfl

theorem renderAll_getLast? (ps : List (Char × ℕ)) (h : ps ≠ []) :
    ∃ gp, ps.getLast? = some gp ∧ (renderAll ps).getLast? = some gp.1 := by
  rcases (List.eq_nil_or_concat ps).resolve_left h with ⟨X, last, hconcat⟩
  rw [List.concat_eq_append] at hconcat
  refine ⟨last, by rw [hconcat, List.getLast?_concat], ?_⟩
  rw [hconcat, renderAll_append, renderAll_singleton, List.getLast?_append,
    renderToken_getLast?]
  rfl

theorem renderAll_chars (ps : List (Char × ℕ)) :
    ∀ ch ∈ renderAll ps, isDigitCh ch ∨ ∃ gp ∈ ps, ch = gp.1 := by
  induction ps with
  | nil =>
    intro ch hch
    have h0 : renderAll ([] : List (Char × ℕ)) = [] := rfl
    rw [h0] at hch
    exact absurd hch (List.not_mem_nil ch)
  | cons gp rest ih =>
    intro ch hch
    rw [renderAll_cons] at hch
    rcases List.mem_append.mp hch with h | h
    · rcases renderToken_chars gp ch h with h1 | h1
      · exact Or.inl h1
      · exact Or.inr ⟨gp, List.mem_cons_self .., h1⟩
    · rcases ih ch h with h1 | ⟨q, hq, hq2⟩
      · exact Or.inl h1
      · exact Or.inr ⟨q, List.mem_cons_of_mem _ hq, hq2⟩

theorem flatMap_congr_mem {α β : Type} (l : List α) (f f2 : α → List β)
    (h : ∀ a ∈ l, f a = f2 a) : l.flatMap f = l.flatMap f2 := by
  induction l with
  | nil => rfl
  | cons a t ih =>
    rw [List.flatMap_cons, List.flatMap_cons, h a (List.mem_cons_self ..),
      ih (fun x hx => h x (List.mem_cons_of_mem _ hx))]

theorem renderAll_flatMap {α : Type} (l : List α) (f : α → List (Char × ℕ)) :
    renderAll (l.flatMap f) = l.flatMap (fun a => renderAll (f a)) := by
  induction l with
  | nil => rfl
  | cons a t ih =>
    rw [List.flatMap_cons, List.flatMap_cons, renderAll_append, ih]

theorem flatten_map_renderAll (pieces : List (List (Char × ℕ))) :
    (pieces.map renderAll).flatten = renderAll pieces.flatten := by
  induction pieces with
  | nil => rfl
  | cons p rest ih =>
    rw [List.map_cons, List.flatten_cons, List.flatten_cons, renderAll_append, ih]

theorem pieces_split {α : Type} (pieces : List (List α)) (P : List α) (x : α)
    (hne : ∀ p ∈ pieces, p ≠ []) (hflat : pieces.flatten = P ++ [x]) :
    ∃ pre lastp, pieces = pre ++ [lastp] ∧ lastp ≠ [] ∧ lastp.getLast? = some x ∧
      ∀ p ∈ pre, ∀ y ∈ p, y ∈ P := by
  rcases List.eq_nil_or_concat pieces with hnil | ⟨pre, lastp, hconcat⟩
  · rw [hnil] at hflat
    exact absurd hflat.symm (by simp)
  · rw [List.concat_eq_append] at hconcat
    have hlne : lastp ≠ [] :=
      hne lastp (hconcat ▸ List.mem_append_right _ (List.mem_singleton.mpr rfl))
    rw [hconcat, List.flatten_concat] at hflat
    rcases (List.eq_nil_or_concat lastp).resolve_left hlne with ⟨lp, lx, hlp⟩
    rw [List.concat_eq_append] at hlp
    rw [hlp, ← List.append_assoc] at hflat
    obtain ⟨h1, h2⟩ := List.append_inj' hflat rfl
    have hx : lx = x := by
      injection h2
    refine ⟨pre, lastp, hconcat, hlne, ?_, ?_⟩
    · rw [hlp, List.getLast?_concat, hx]
    · intro p hp y hy
      have hyf : y ∈ pre.flatten := List.mem_flatten.mpr ⟨p, hp, hy⟩
      rw [← h1]
      exact List.mem_append_left _ hyf

theorem cellN01 (g : Grid) (hwf : WFGrid g) (r c : ℕ) :
    cellN g r c = 0 ∨ cellN g r c = 1 := by
  by_cases hr : r < g.length
  · by_cases hc : c < numCols g
    · exact cellN_zero_or_one g hwf hr hc
    · exact Or.inl (cellN_col_oob g hwf.1 r c (by omega))
  · exact Or.inl (cellN_row_oob g r c (by omega))

theorem cellZ01 (g : Grid) (hwf : WFGrid g) (r : ℕ) (c : ℤ) :
    cellZ g r c = 0 ∨ cellZ g r c = 1 := by
  unfold cellZ
  split
  · exact cellN01 g hwf r _
  · exact Or.inl rfl

/-! ## Helper lemmas: the structure of the encoded group stream -/

theorem rowChars_mem (g : Grid) (row : ℕ) (mn mx : ℤ) :
    ∀ ch ∈ rowChars g row mn mx, ch = 'b' ∨ ch = 'o' := by
  intro ch hch
  unfold rowChars at hch
  rw [List.mem_map] at hch
  obtain ⟨c, _, hc⟩ := hch
  rw [← hc]
  split
  · exact Or.inr rfl
  · exact Or.inl rfl

theorem encodeGrid_split (g : Grid) (t b : ℕ) (mn mx : ℤ) (htb : t ≤ b) :
    encodeGrid g t b mn mx =
      (List.range' t (b - t)).flatMap
        (fun row => rleGroups (rowChars g row mn mx) ++ [('$', 1)]) ++
      (rleGroups (rowChars g b mn mx) ++ [('!', 1)]) := by
  unfold encodeGrid
  have h1 : b + 1 - t = (b - t) + 1 := by omega
  rw [h1, List.range'_1_concat, List.flatMap_append]
  have h2 : t + (b - t) = b := by omega
  congr 1
  · apply flatMap_congr_mem
    intro row hrow
    obtain ⟨i, hi, hrowi⟩ := List.mem_range'.mp hrow
    have hlt : row ≠ b := by omega
    rw [if_neg hlt]
  · rw [h2, List.flatMap_singleton, if_pos rfl]

theorem encode_elide (g : Grid) (t b : ℕ) (mn mx : ℤ) (htb : t ≤ b)
    (hne : rowChars g b mn mx ≠ []) :
    ∃ rg' glast, rleGroups (rowChars g b mn mx) = rg' ++ [glast] ∧
      elideGroups (encodeGrid g t b mn mx) =
        ((List.range' t (b - t)).flatMap
            (fun row => rleGroups (rowChars g row mn mx) ++ [('$', 1)]) ++
          (if glast.1 = 'b' then rg' else rg' ++ [glast])) ++ [('!', 1)] := by
  have hrg : rleGroups (rowChars g b mn mx) ≠ [] := by
    cases hx : rowChars g b mn mx with
    | nil => exact absurd hx hne
    | cons c cs => exact rleGroups_ne_nil c cs
  obtain ⟨rg', glast, hconcat⟩ := (List.eq_nil_or_concat _).resolve_left hrg
  rw [List.concat_eq_append] at hconcat
  refine ⟨rg', glast, hconcat, ?_⟩
  rw [encodeGrid_split g t b mn mx htb, hconcat]
  have h3 : (rg' ++ [glast]) ++ [(('!', 1) : Char × ℕ)] = rg' ++ [glast, ('!', 1)] := by
    simp
  rw [h3, ← List.append_assoc, elideGroups_concat]
  by_cases hb : glast.1 = 'b'
  · rw [if_pos hb, if_pos hb, List.append_assoc]
  · rw [if_neg hb, if_neg hb]
    simp [List.append_assoc]

theorem encodeGrid_mem (g : Grid) (t b : ℕ) (mn mx : ℤ) :
    ∀ gp ∈ encodeGrid g t b mn mx,
      1 ≤ gp.2 ∧ (gp.1 = 'b' ∨ gp.1 = 'o' ∨ gp.1 = '$' ∨ gp.1 = '!') := by
  intro gp hgp
  unfold encodeGrid at hgp
  rw [List.mem_flatMap] at hgp
  obtain ⟨row, _, hmem⟩ := hgp
  rcases List.mem_append.mp hmem with h | h
  · obtain ⟨h1, h2, _⟩ := rleGroups_mem _ gp h
    refine ⟨h2, ?_⟩
    rcases rowChars_mem g row mn mx gp.1 h1 with h3 | h3
    · exact Or.inl h3
    · exact Or.inr (Or.inl h3)
  · rw [List.mem_singleton] at h
    rw [h]
    refine ⟨le_refl 1, ?_⟩
    dsimp only
    split
    · exact Or.inr (Or.inr (Or.inr rfl))
    · exact Or.inr (Or.inr (Or.inl rfl))

/-! ## Helper lemmas: the line loop of parseRLE over the writer's body lines -/

theorem phase1_body : ∀ (ls : List (List Char)) (acc : List Char) (hdr : Option (ℤ × ℤ)),
    (∀ l ∈ ls, l ≠ [] ∧ l.head? ≠ some '#' ∧ l.head? ≠ some 'x') →
    (∀ l ∈ ls.dropLast, l.getLast? ≠ some '!') →
    (∃ ll, ls.getLast? = some ll ∧ ll.getLast? = some '!') →
    phase1 ls acc hdr = .ok ((acc ++ ls.flatten).dropLast, hdr) := by
  intro ls
  induction ls with
  | nil =>
    intro acc hdr _ _ hbang
    obtain ⟨ll, hll, _⟩ := hbang
    exact absurd hll (by simp)
  | cons l ls ih =>
    intro acc hdr hhead hlast hbang
    obtain ⟨hne, hh1, hh2⟩ := hhead l (List.mem_cons_self ..)
    cases l with
    | nil => exact absurd rfl hne
    | cons c cs =>
      rw [phase1_cons_eq]
      have hc1 : c ≠ '#' := fun h => hh1 (by rw [h]; rfl)
      have hc2 : c ≠ 'x' := fun h => hh2 (by rw [h]; rfl)
      rw [if_neg hc1, if_neg hc2]
      cases ls with
      | nil =>
        obtain ⟨ll, hll, hbng⟩ := hbang
        have hsing : ([c :: cs] : List (List Char)).getLast? = some (c :: cs) := rfl
        rw [hsing] at hll
        have hlleq : ll = c :: cs := by
          injection hll with h2
          exact h2.symm
        rw [hlleq] at hbng
        have hlastc : (c :: cs).getLast (List.cons_ne_nil c cs) = '!' :=
          getLast_eq_of_getLast? hbng _
        rw [if_pos hlastc]
        have hfl : ([c :: cs] : List (List Char)).flatten = c :: cs := by simp
        rw [hfl]
      | cons l2 ls2 =>
        have hmem : (c :: cs) ∈ ((c :: cs) :: l2 :: ls2).dropLast := by
          rw [List.dropLast_cons₂]
          exact List.mem_cons_self ..
        have hnotbang : (c :: cs).getLast? ≠ some '!' := hlast _ hmem
        have hnotbang2 : (c :: cs).getLast (List.cons_ne_nil c cs) ≠ '!' := by
          intro h
          apply hnotbang
          rw [List.getLast?_eq_getLast _ (List.cons_ne_nil c cs), h]
        rw [if_neg hnotbang2]
        have hrec := ih (acc ++ c :: cs) hdr
          (fun q hq => hhead q (List.mem_cons_of_mem _ hq))
          (fun q hq => hlast q (by rw [List.dropLast_cons₂]; exact List.mem_cons_of_mem _ hq))
          (by
            obtain ⟨ll, hll, hbng⟩ := hbang
            rw [List.getLast?_cons_cons] at hll
            exact ⟨ll, hll, hbng⟩)
        rw [hrec, List.flatten_cons]
        simp [List.append_assoc]

/-! ## Helper lemmas: decoding one chunk of the writer's token text -/

theorem pyInt_nil : pyInt [] = none := rfl

theorem splitOnChar_flatMap (rows : List ℕ) (f : ℕ → List Char)
    (hfree : ∀ r ∈ rows, '$' ∉ f r) (tail : List Char) (htail : '$' ∉ tail) :
    splitOnChar '$' ((rows.flatMap (fun r => f r ++ ['$'])) ++ tail) =
      rows.map f ++ [tail] := by
  induction rows with
  | nil =>
    rw [List.flatMap_nil, List.nil_append, List.map_nil, List.nil_append]
    exact splitOnChar_not_mem '$' tail htail
  | cons r rs ih =>
    have hr := hfree r (List.mem_cons_self ..)
    have hstep : (((f r ++ ['$']) ++ rs.flatMap (fun q => f q ++ ['$'])) ++ tail)
        = f r ++ '$' :: (rs.flatMap (fun q => f q ++ ['$']) ++ tail) := by
      simp [List.append_assoc]
    rw [List.flatMap_cons, hstep, splitOnChar_append '$' (f r) _ hr,
      ih (fun q hq => hfree q (List.mem_cons_of_mem _ hq)), List.map_cons, List.cons_append]

theorem expandChunk_cons (gp : Char × ℕ) (rest : List (Char × ℕ))
    (hgp : gp.1 = 'b' ∨ gp.1 = 'o') :
    expandChunk (renderAll (gp :: rest)) =
      List.replicate gp.2 (if gp.1 = 'b' then 0 else 1) ++ expandChunk (renderAll rest) := by
  obtain ⟨s0, ss, hl⟩ := splitOnTags_ne_nil (renderAll rest)
  have hpair : splitOnTags (renderAll rest) = (s0 :: ss, (splitOnTags (renderAll rest)).2) := by
    rw [← hl]
  have htag : splitOnTags (gp.1 :: renderAll rest) =
      ([] :: s0 :: ss, gp.1 :: (splitOnTags (renderAll rest)).2) := by
    rw [splitOnTags_tag gp.1 hgp, hl]
  have hexp : expandChunk (renderAll rest) =
      ((s0 :: ss).zip (splitOnTags (renderAll rest)).2).flatMap
        (fun sc => List.replicate (((pyInt sc.1).getD 1).toNat)
          (if sc.2 = 'b' then 0 else 1)) := by
    unfold expandChunk
    rw [hpair]
  by_cases h1 : gp.2 = 1
  · have hra : renderAll (gp :: rest) = gp.1 :: renderAll rest := by
      rw [renderAll_cons]
      unfold renderToken
      rw [if_pos h1, List.singleton_append]
    rw [hra]
    unfold expandChunk
    rw [htag]
    dsimp only
    rw [List.zip_cons_cons, List.flatMap_cons, ← hexp, pyInt_nil, h1]
    rfl
  · have hra : renderAll (gp :: rest) = pyStr ((gp.2 : ℤ)) ++ (gp.1 :: renderAll rest) := by
      rw [renderAll_cons]
      unfold renderToken
      rw [if_neg h1, List.append_assoc, List.singleton_append]
    have hdig : ∀ ch ∈ pyStr ((gp.2 : ℤ)), ¬(ch = 'b' ∨ ch = 'o') := by
      intro ch hch
      have hd := pyStr_digits _ (Int.natCast_nonneg _) ch hch
      intro hor
      rcases hor with h | h
      · rw [h] at hd
        exact absurd hd (by decide)
      · rw [h] at hd
        exact absurd hd (by decide)
    have hpre : splitOnTags (pyStr ((gp.2 : ℤ)) ++ gp.1 :: renderAll rest) =
        ((pyStr ((gp.2 : ℤ)) ++ []) :: s0 :: ss, gp.1 :: (splitOnTags (renderAll rest)).2) :=
      splitOnTags_pre _ hdig _ _ _ _ htag
    rw [hra]
    unfold expandChunk
    rw [hpre]
    dsimp only
    rw [List.zip_cons_cons, List.flatMap_cons, ← hexp, List.append_nil, pyInt_pyStr,
      Option.getD_some, Int.toNat_natCast]
    dsimp only
    rw [hl, ← hexp]

theorem expandChunk_groups (ps : List (Char × ℕ)) (h : ∀ gp ∈ ps, gp.1 = 'b' ∨ gp.1 = 'o') :
    expandChunk (renderAll ps) = (unrle ps).map (fun ch => if ch = 'b' then 0 else 1) := by
  induction ps with
  | nil => rfl
  | cons gp rest ih =>
    rw [expandChunk_cons gp rest (h gp (List.mem_cons_self ..)),
      ih (fun q hq => h q (List.mem_cons_of_mem _ hq))]
    unfold unrle
    rw [List.flatMap_cons, List.map_append, List.map_replicate]

theorem expandChunk_rowText (g : Grid) (row : ℕ) (mn mx : ℤ) :
    expandChunk (renderAll (rleGroups (rowChars g row mn mx))) =
      (rowChars g row mn mx).map (fun ch => if ch = 'b' then 0 else 1) := by
  rw [expandChunk_groups _
    (fun gp hgp => rowChars_mem g row mn mx gp.1 (rleGroups_mem _ gp hgp).1),
    unrle_rleGroups]

theorem rowChars_map_cell (g : Grid) (hwf : WFGrid g) (row : ℕ) (mn mx : ℤ) :
    (rowChars g row mn mx).map (fun ch => if ch = 'b' then 0 else 1) =
      (intRange mn (mx + 1)).map (fun c => cellZ g row c) := by
  unfold rowChars
  rw [List.map_map]
  apply List.map_congr_left
  intro c _
  dsimp only [Function.comp]
  rcases cellZ01 g hwf row c with h | h
  · rw [h]
    simp
  · rw [h]
    simp

theorem decodeChunk_rowText (g : Grid) (hwf : WFGrid g) (row : ℕ) (mn mx : ℤ)
    (hmn : mn ≤ mx) :
    decodeChunk (mx - mn + 1) (renderAll (rleGroups (rowChars g row mn mx))) =
      (intRange mn (mx + 1)).map (fun c => cellZ g row c) := by
  unfold decodeChunk
  dsimp only
  rw [expandChunk_rowText, rowChars_map_cell g hwf]
  have hlen : ((intRange mn (mx + 1)).map (fun c => cellZ g row c)).length
      = (mx + 1 - mn).toNat := by
    rw [List.length_map, intRange_length]
  rw [hlen, if_neg (by omega)]

theorem decodeChunk_lastText (g : Grid) (hwf : WFGrid g) (b : ℕ) (mn mx : ℤ)
    (hmn : mn ≤ mx) (rg' : List (Char × ℕ)) (glast : Char × ℕ)
    (hconcat : rleGroups (rowChars g b mn mx) = rg' ++ [glast]) (hb : glast.1 = 'b') :
    decodeChunk (mx - mn + 1) (renderAll rg') =
      (intRange mn (mx + 1)).map (fun c => cellZ g b c) := by
  have hmemrg : ∀ gp ∈ rg' ++ [glast], gp.1 = 'b' ∨ gp.1 = 'o' := by
    intro gp hgp
    rw [← hconcat] at hgp
    exact rowChars_mem g b mn mx gp.1 (rleGroups_mem _ gp hgp).1
  have hrgmem : ∀ gp ∈ rg', gp.1 = 'b' ∨ gp.1 = 'o' :=
    fun gp hgp => hmemrg gp (List.mem_append_left _ hgp)
  have hcount : 1 ≤ glast.2 := by
    have hmem := rleGroups_mem (rowChars g b mn mx) glast
      (by rw [hconcat]; exact List.mem_append_right _ (List.mem_singleton.mpr rfl))
    exact hmem.2.1
  have hunrle : unrle rg' ++ List.replicate glast.2 'b' = rowChars g b mn mx := by
    have h1 := unrle_rleGroups (rowChars g b mn mx)
    rw [hconcat, unrle_append] at h1
    have h2 : unrle [glast] = List.replicate glast.2 glast.1 := by
      unfold unrle
      rw [List.flatMap_cons, List.flatMap_nil, List.append_nil]
    rw [h2, hb] at h1
    exact h1
  have hexp : expandChunk (renderAll rg')
      = (unrle rg').map (fun ch => if ch = 'b' then 0 else 1) :=
    expandChunk_groups rg' hrgmem
  have hWlen : (rowChars g b mn mx).length = (mx + 1 - mn).toNat := rowChars_length g b mn mx
  have hlen1 : (unrle rg').length + glast.2 = (mx + 1 - mn).toNat := by
    have hc := congrArg List.length hunrle
    simp only [List.length_append, List.length_replicate] at hc
    rw [hWlen] at hc
    exact hc
  unfold decodeChunk
  dsimp only
  rw [hexp, List.length_map]
  rw [if_pos (by omega)]
  rw [show (mx - mn + 1 - ((unrle rg').length : ℤ)).toNat = glast.2 from by omega]
  have hrep : List.replicate glast.2 (0 : ℕ)
      = (List.replicate glast.2 'b').map (fun ch => if ch = 'b' then 0 else 1) := by
    rw [List.map_replicate]
    rfl
  rw [hrep, ← List.map_append, hunrle, rowChars_map_cell g hwf]

/-! ## Helper lemmas: the writer's physical lines -/

theorem mem_of_getLast? {α : Type} {l : List α} {a : α} (h : l.getLast? = some a) :
    a ∈ l := by
  cases l with
  | nil => simp at h
  | cons x xs =>
    have hne : x :: xs ≠ [] := List.cons_ne_nil x xs
    rw [List.getLast?_eq_getLast _ hne] at h
    injection h with h2
    rw [← h2]
    exact List.getLast_mem hne

theorem wrap_lines_spec (gs : List (Char × ℕ)) (hgs : gs ≠ [])
    (h1 : ∀ gp ∈ gs, 1 ≤ gp.2 ∧ (gp.1 = 'b' ∨ gp.1 = 'o' ∨ gp.1 = '$' ∨ gp.1 = '!'))
    (htok : ∀ gp ∈ gs, (renderToken gp).length ≤ 70)
    (P : List (Char × ℕ)) (hP : elideGroups gs = P ++ [('!', 1)])
    (hPtags : ∀ gp ∈ P, gp.1 ≠ '!') :
    (∀ l ∈ wrapGroups gs [], l ≠ [] ∧ l.head? ≠ some '#' ∧ l.head? ≠ some 'x') ∧
    (∀ l ∈ (wrapGroups gs []).dropLast, l.getLast? ≠ some '!') ∧
    (∃ ll, (wrapGroups gs []).getLast? = some ll ∧ ll.getLast? = some '!') ∧
    (wrapGroups gs []).flatten = renderAll (elideGroups gs) ∧
    (∀ l ∈ wrapGroups gs [], ∀ ch ∈ l, isSpaceCh ch = false) := by
  obtain ⟨pieces, hflat, hwrap, hpne⟩ := wrapGroups_partition gs []
  have h0 : renderAll ([] : List (Char × ℕ)) = [] := rfl
  rw [h0] at hwrap
  have hflat2 : pieces.flatten = elideGroups gs := by simpa using hflat
  have hpnonempty : ∀ p ∈ pieces, p ≠ [] := hpne htok hgs
  obtain ⟨pre, lastp, hpieces, hlastne, hlastlast, hpremem⟩ :=
    pieces_split pieces P ('!', 1) hpnonempty (by rw [hflat2, hP])
  have hmemgs : ∀ p ∈ pieces, ∀ q ∈ p, q ∈ gs := by
    intro p hp q hq
    have hq2 : q ∈ pieces.flatten := List.mem_flatten.mpr ⟨p, hp, hq⟩
    rw [hflat2] at hq2
    exact elideGroups_subset gs q hq2
  rw [hwrap]
  refine ⟨?_, ?_, ?_, ?_, ?_⟩
  · intro l hl
    rw [List.mem_map] at hl
    obtain ⟨p, hp, hpl⟩ := hl
    have hpne2 := hpnonempty p hp
    refine ⟨by rw [← hpl]; exact renderAll_ne_nil _ hpne2, ?_⟩
    cases p with
    | nil => exact absurd rfl hpne2
    | cons q p2 =>
      obtain ⟨ch, hch, hchor⟩ := renderToken_head? q
      have hh : l.head? = some ch := by rw [← hpl, renderAll_head?, hch]
      have hchne : ch ≠ '#' ∧ ch ≠ 'x' := by
        rcases hchor with hd | he
        · exact ⟨fun heq => absurd (heq ▸ hd) (by decide),
            fun heq => absurd (heq ▸ hd) (by decide)⟩
        · have hq1 := (h1 q (hmemgs _ hp q (List.mem_cons_self ..))).2
          rw [he]
          rcases hq1 with h | h | h | h
          · rw [h]
            exact ⟨by decide, by decide⟩
          · rw [h]
            exact ⟨by decide, by decide⟩
          · rw [h]
            exact ⟨by decide, by decide⟩
          · rw [h]
            exact ⟨by decide, by decide⟩
      constructor
      · rw [hh]
        intro heq
        injection heq with h2
        exact hchne.1 h2
      · rw [hh]
        intro heq
        injection heq with h2
        exact hchne.2 h2
  · rw [hpieces, List.map_append,
      show List.map renderAll [lastp] = [renderAll lastp] from rfl, List.dropLast_concat]
    intro l hl
    rw [List.mem_map] at hl
    obtain ⟨p, hp, hpl⟩ := hl
    have hpne2 : p ≠ [] := hpnonempty p (by rw [hpieces]; exact List.mem_append_left _ hp)
    obtain ⟨q, hq1, hq2⟩ := renderAll_getLast? p hpne2
    have hqP : q ∈ P := hpremem p hp q (mem_of_getLast? hq1)
    rw [← hpl, hq2]
    intro heq
    injection heq with h2
    exact hPtags q hqP h2
  · rw [hpieces, List.map_append,
      show List.map renderAll [lastp] = [renderAll lastp] from rfl, List.getLast?_concat]
    obtain ⟨q, hq1, hq2⟩ := renderAll_getLast? lastp hlastne
    have hq : q = ('!', 1) := by
      rw [hlastlast] at hq1
      injection hq1 with h2
      exact h2.symm
    refine ⟨renderAll lastp, rfl, ?_⟩
    rw [hq2, hq]
  · rw [flatten_map_renderAll, hflat2]
  · intro l hl ch hch
    rw [List.mem_map] at hl
    obtain ⟨p, hp, hpl⟩ := hl
    rw [← hpl] at hch
    rcases renderAll_chars p ch hch with hd | ⟨q, hq, hq2⟩
    · exact isDigitCh_not_space hd
    · have hq1 := (h1 q (hmemgs p hp q hq)).2
      rw [hq2]
      rcases hq1 with h | h | h | h
      · rw [h]
        decide
      · rw [h]
        decide
      · rw [h]
        decide
      · rw [h]
        decide

/-! ## The decode-encode round trip -/

theorem parseRLE_writer_lines (g : Grid) (hwf : WFGrid g) (t b nc xc : ℕ)
    (htb : t ≤ b) (hnx : nc ≤ xc) (hWbound : xc + 1 - nc < 10 ^ 69) :
    parseRLE (hdrChars (((xc : ℤ)) - ((nc : ℤ)) + 1) (((b : ℤ)) - ((t : ℤ)) + 1)
        :: wrapGroups (encodeGrid g t b ((nc : ℤ)) ((xc : ℤ))) []) =
      Except.ok (cropGrid g t b ((nc : ℤ)) ((xc : ℤ))) := by
  set mn := ((nc : ℤ)) with hmndef
  set mx := ((xc : ℤ)) with hmxdef
  have hmn : mn ≤ mx := by
    rw [hmndef, hmxdef]
    exact_mod_cast hnx
  have htok : ∀ gp ∈ encodeGrid g t b mn mx, (renderToken gp).length ≤ 70 := by
    apply encodeGrid_token_bound
    rw [hmndef, hmxdef]
    omega
  have hrowne : ∀ row, rowChars g row mn mx ≠ [] := by
    intro row
    have hlen := rowChars_length g row mn mx
    intro h0
    rw [h0] at hlen
    simp only [List.length_nil] at hlen
    rw [hmndef, hmxdef] at hlen
    omega
  obtain ⟨rg', glast, hconcat, helide⟩ := encode_elide g t b mn mx htb (hrowne b)
  set PRE := (List.range' t (b - t)).flatMap
      (fun row => rleGroups (rowChars g row mn mx) ++ [('$', 1)]) with hPRE
  set LAST := (if glast.1 = 'b' then rg' else rg' ++ [glast]) with hLAST
  have hPtags : ∀ gp ∈ PRE ++ LAST, gp.1 ≠ '!' := by
    intro gp hgp
    rcases List.mem_append.mp hgp with h | h
    · rw [hPRE, List.mem_flatMap] at h
      obtain ⟨row, _, hmem⟩ := h
      rcases List.mem_append.mp hmem with h2 | h2
      · rcases rowChars_mem g row mn mx gp.1 (rleGroups_mem _ gp h2).1 with h3 | h3
        · rw [h3]
          decide
        · rw [h3]
          decide
      · rw [List.mem_singleton] at h2
        rw [h2]
        decide
    · have hrg : gp ∈ rg' ++ [glast] := by
        rw [hLAST] at h
        split at h
        · exact List.mem_append_left _ h
        · exact h
      rw [← hconcat] at hrg
      rcases rowChars_mem g b mn mx gp.1 (rleGroups_mem _ gp hrg).1 with h3 | h3
      · rw [h3]
        decide
      · rw [h3]
        decide
  have henc_ne : encodeGrid g t b mn mx ≠ [] := by
    rw [encodeGrid_split g t b mn mx htb]
    simp
  obtain ⟨hheads, hlastnb, hbang, hflatten, hspace⟩ :=
    wrap_lines_spec (encodeGrid g t b mn mx) henc_ne (encodeGrid_mem g t b mn mx) htok
      (PRE ++ LAST) helide hPtags
  unfold parseRLE
  rw [List.map_cons, pyStrip_hdrChars]
  have hmapstrip : (wrapGroups (encodeGrid g t b mn mx) []).map pyStrip
      = wrapGroups (encodeGrid g t b mn mx) [] := by
    have hst : ∀ l ∈ wrapGroups (encodeGrid g t b mn mx) [], pyStrip l = id l :=
      fun l hl => pyStrip_id l (hspace l hl)
    rw [List.map_congr_left hst, List.map_id]
  rw [hmapstrip, phase1_header, phase1_body _ [] _ hheads hlastnb hbang]
  dsimp only
  rw [List.nil_append]
  have hdrop : ((wrapGroups (encodeGrid g t b mn mx) []).flatten).dropLast
      = renderAll (PRE ++ LAST) := by
    rw [hflatten, helide, renderAll_append, renderAll_singleton,
      show renderToken (('!', 1) : Char × ℕ) = ['!'] from rfl, List.dropLast_concat]
  rw [hdrop]
  have hfreerow : ∀ row, ∀ ch ∈ renderAll (rleGroups (rowChars g row mn mx)), ch ≠ '$' := by
    intro row ch hch
    rcases renderAll_chars _ ch hch with hd | ⟨q, hq, hq2⟩
    · intro heq
      rw [heq] at hd
      exact absurd hd (by decide)
    · rcases rowChars_mem g row mn mx q.1 (rleGroups_mem _ q hq).1 with h3 | h3
      · rw [hq2, h3]
        decide
      · rw [hq2, h3]
        decide
  have hfreelast : ∀ ch ∈ renderAll LAST, ch ≠ '$' := by
    intro ch hch
    rcases renderAll_chars _ ch hch with hd | ⟨q, hq, hq2⟩
    · intro heq
      rw [heq] at hd
      exact absurd hd (by decide)
    · have hrg : q ∈ rg' ++ [glast] := by
        rw [hLAST] at hq
        split at hq
        · exact List.mem_append_left _ hq
        · exact hq
      rw [← hconcat] at hrg
      rcases rowChars_mem g b mn mx q.1 (rleGroups_mem _ q hrg).1 with h3 | h3
      · rw [hq2, h3]
        decide
      · rw [hq2, h3]
        decide
  have hsplit : splitOnChar '$' (renderAll (PRE ++ LAST)) =
      (List.range' t (b - t)).map (fun row => renderAll (rleGroups (rowChars g row mn mx)))
        ++ [renderAll LAST] := by
    rw [renderAll_append, hPRE, renderAll_flatMap]
    have hstep : ∀ row ∈ List.range' t (b - t),
        renderAll (rleGroups (rowChars g row mn mx) ++ [('$', 1)]) =
          (fun r => renderAll (rleGroups (rowChars g r mn mx))) row ++ ['$'] := by
      intro row _
      rw [renderAll_append, renderAll_singleton]
      rfl
    rw [flatMap_congr_mem _ _ _ hstep]
    exact splitOnChar_flatMap (List.range' t (b - t)) _
      (fun r hr hmem => hfreerow r '$' hmem rfl) _ (fun hmem => hfreelast '$' hmem rfl)
  rw [hsplit, List.map_append, List.map_map]
  have hmaprows : (List.range' t (b - t)).map
      ((decodeChunk (mx - mn + 1)) ∘ (fun row => renderAll (rleGroups (rowChars g row mn mx))))
      = (List.range' t (b - t)).map
          (fun row => (intRange mn (mx + 1)).map (fun c => cellZ g row c)) := by
    apply List.map_congr_left
    intro row _
    simp only [Function.comp_apply]
    exact decodeChunk_rowText g hwf row mn mx hmn
  have hmaplast : List.map (decodeChunk (mx - mn + 1)) [renderAll LAST]
      = [(intRange mn (mx + 1)).map (fun c => cellZ g b c)] := by
    rw [List.map_cons, List.map_nil]
    congr 1
    rw [hLAST]
    by_cases hgb : glast.1 = 'b'
    · rw [if_pos hgb]
      exact decodeChunk_lastText g hwf b mn mx hmn rg' glast hconcat hgb
    · rw [if_neg hgb, ← hconcat]
      exact decodeChunk_rowText g hwf b mn mx hmn
  rw [hmaprows, hmaplast]
  have hcrop : (List.range' t (b - t)).map
        (fun row => (intRange mn (mx + 1)).map (fun c => cellZ g row c))
      ++ [(intRange mn (mx + 1)).map (fun c => cellZ g b c)] = cropGrid g t b mn mx := by
    unfold cropGrid
    have h1 : b + 1 - t = (b - t) + 1 := by omega
    rw [h1, List.range'_1_concat, List.map_append, show t + (b - t) = b from by omega]
    rfl
  rw [hcrop]
  have hroww : ∀ row ∈ cropGrid g t b mn mx, row.length = (mx + 1 - mn).toNat := by
    intro row hrow
    unfold cropGrid at hrow
    rw [List.mem_map] at hrow
    obtain ⟨r, _, hr⟩ := hrow
    rw [← hr, List.length_map, intRange_length]
  have hall : (cropGrid g t b mn mx).all
      (fun row => row.length = ((cropGrid g t b mn mx).headD []).length) = true := by
    rw [List.all_eq_true]
    intro row hrow
    have hhd : (cropGrid g t b mn mx).headD [] ∈ cropGrid g t b mn mx := by
      cases hc : cropGrid g t b mn mx with
      | nil =>
        have hlen : (cropGrid g t b mn mx).length = b + 1 - t := by
          unfold cropGrid
          rw [List.length_map, List.length_range']
        rw [hc] at hlen
        simp only [List.length_nil] at hlen
        omega
      | cons r0 rs =>
        exact List.mem_cons_self r0 rs
    rw [hroww row hrow, hroww _ hhd]
    simp
  rw [if_pos hall]

/-- C3 counterexample: the grid [[0,1,0]] has a live cell and a well-defined
bounding box (the single cell at column 1), yet decode(encode(g, findBoundary(g)))
does not reconstruct the 1×1 crop: the elif bug in findBoundaries leaves maxCol
at the -inf sentinel, and writeRLE raises TypeError inside range(), so the
round trip raises instead of returning a grid. -/
theorem parseRLE_writeRLE_cex :
    hasLive [[0, 1, 0]] = true ∧
    specMinCol [[0, 1, 0]] = 1 ∧ specMaxCol [[0, 1, 0]] = 1 ∧
    (writeRLE [[0, 1, 0]]).bind parseRLE = Except.error "TypeError" := by
  refine ⟨by decide, by decide, by decide, rfl⟩

/-- C3 amended: for every well-formed grid with a live cell on which
findBoundaries does return the true bounding box (the elif bug can prevent
this), and whose column count stays below 10^69 (so every encoder token fits
on one 70-character line), decoding the encoder output reconstructs exactly
the crop of the grid to its bounding box. -/
theorem parseRLE_writeRLE_roundtrip (g : Grid) (hwf : WFGrid g) (hlive : hasLive g = true)
    (hbox : findBoundaries g = (specTop g, specBot g,
      some ((specMinCol g : ℤ)), some ((specMaxCol g : ℤ))))
    (hcols : numCols g < 10 ^ 69) :
    (writeRLE g).bind parseRLE =
      Except.ok (cropGrid g (specTop g) (specBot g)
        ((specMinCol g : ℤ)) ((specMaxCol g : ℤ))) := by
  have htb := specTop_le_specBot g hlive
  have hnx := specMinCol_le_specMaxCol g hwf.1 hlive
  have hxlt := (specMaxCol_spec g hwf.1 hlive).2.1
  unfold writeRLE
  rw [hbox]
  dsimp only
  show parseRLE _ = _
  exact parseRLE_writer_lines g hwf (specTop g) (specBot g) (specMinCol g) (specMaxCol g)
    htb hnx (by omega)

/-- Witness for C3 (amended) at the 2×2 grid with live cells at (0,0), (0,1)
and (1,1). -/
theorem parseRLE_writeRLE_roundtrip_witness :
    (writeRLE [[1, 1], [0, 1]]).bind parseRLE =
      Except.ok (cropGrid [[1, 1], [0, 1]] (specTop [[1, 1], [0, 1]])
        (specBot [[1, 1], [0, 1]]) ((specMinCol [[1, 1], [0, 1]] : ℤ))
        ((specMaxCol [[1, 1], [0, 1]] : ℤ))) :=
  parseRLE_writeRLE_roundtrip [[1, 1], [0, 1]] (by decide) (by decide) (by decide)
    (by norm_num [numCols])
